import Mathlib

/-!
# Substitution / shift / transposition pipeline (`cipher.cpp`, `cyber.cpp`)

A shallow embedding of the transform functions of the two source files and
the properties proved about them.

Modelling conventions.

* A `std::string` is the list of its 8-bit code units, each a natural number
  below 256 (`WellFormed`). Arithmetic cast back to `char` is taken modulo 256
  (`toChar`), which is what both a signed and an unsigned `char` give once the
  result is read as a code unit.
* `islower`, `isupper`, `tolower` are those of the "C" locale.
* `int` and `size_t` counters are natural numbers: texts are far shorter than
  `2^31` characters, so no counter wraps.
* A `std::map` is an association list; `count` and `operator[]` are lookups.
* A range `for` over a string is a recursion over its characters; a counted
  `for` without a data-dependent guard is a fold over `List.range`; a counted
  `for` whose guard also tests the running `index` is a recursion with the
  iteration bound of the counter as fuel.
* Evaluating an undefined operation (`% 0`, indexing an empty vector) is a
  `Fault`; functions that can do so return `Except Fault`.
* Console output is not modelled.
* The definitions of the `Spec` namespace follow the wording of the
  specification; the code is compared with them.
-/

set_option autoImplicit false

/-- A string, as the sequence of its code units. -/
abbrev Str := List Nat

/-- Every code unit fits in 8 bits. -/
def WellFormed (s : Str) : Prop := ∀ c ∈ s, c < 256

instance (s : Str) : Decidable (WellFormed s) := by
  unfold WellFormed; infer_instance

/-- The undefined operations the code can reach. -/
inductive Fault where
  | divisionByZero
  | indexOutOfRange
  deriving DecidableEq, Repr

/-- `islower` of the "C" locale. -/
def islower (c : Nat) : Bool := decide (97 ≤ c) && decide (c ≤ 122)

/-- `isupper` of the "C" locale. -/
def isupper (c : Nat) : Bool := decide (65 ≤ c) && decide (c ≤ 90)

/-- `tolower` of the "C" locale. -/
def tolower (c : Nat) : Nat := if isupper c then c + 32 else c

/-- The cast `(char)x` of an `int`, read as a code unit. -/
def toChar (x : Int) : Nat := (x % 256).toNat

/-- `m.count(k)` of a `std::map`. -/
def mapCount {κ ν : Type} [BEq κ] (m : List (κ × ν)) (k : κ) : Bool :=
  (m.lookup k).isSome

/-- `m[k]` of a `std::map`, read only (`dflt` is the value-initialised entry). -/
def mapAt {κ ν : Type} [BEq κ] (m : List (κ × ν)) (k : κ) (dflt : ν) : ν :=
  (m.lookup k).getD dflt

/-- `m[k] = v` of a `std::map`: overwrite the entry of `k`, or add one. -/
def mapAssign {κ ν : Type} [BEq κ] (m : List (κ × ν)) (k : κ) (v : ν) : List (κ × ν) :=
  if mapCount m k then m.map (fun e => if e.1 == k then (k, v) else e) else m ++ [(k, v)]

/-- A `vector<vector<char>> grid(rows, vector<char>(cols, ' '))`. -/
def mkGrid (rows cols : Nat) : List (List Nat) :=
  List.replicate rows (List.replicate cols 32)

/-- The read `grid[i][j]`. -/
def gridGet (grid : List (List Nat)) (i j : Nat) : Nat :=
  (grid.getD i []).getD j 0

/-- The write `grid[i][j] = v`. -/
def gridSet (grid : List (List Nat)) (i j v : Nat) : List (List Nat) :=
  grid.set i ((grid.getD i []).set j v)

namespace Cipher

/-- The global `substitutionMap` of `cipher.cpp`. -/
def substitutionMap : List (Nat × Str) :=
  [(97, [33]), (98, [34]), (99, [35]), (100, [36]), (101, [37]), (102, [38]),
   (103, [39]), (104, [40]), (105, [41]), (106, [42]), (107, [43]), (108, [44]),
   (109, [45]), (110, [46]), (111, [47]), (112, [48]), (113, [49]), (114, [50]),
   (115, [51]), (116, [52]), (117, [53]), (118, [54]), (119, [55]), (120, [56]),
   (121, [57]), (122, [58])]

/-- The function `createReverseMap`: the global `reverseSubstitutionMap` is
passed in and the updated map returned. -/
def createReverseMap (reverseSubstitutionMap : List (Str × Nat)) : List (Str × Nat) :=
  substitutionMap.foldl (fun m e => mapAssign m e.2 e.1) reverseSubstitutionMap

/-- The global `reverseSubstitutionMap` as `main` leaves it after its first
statement, `createReverseMap()`, run on the initially empty map. -/
def reverseSubstitutionMap : List (Str × Nat) := createReverseMap []

/-- The function `applySubstitution`. -/
def applySubstitution (plaintext : Str) : Str :=
  plaintext.foldl (fun cipherText c =>
    if islower c then
      if mapCount substitutionMap c then cipherText ++ mapAt substitutionMap c []
      else cipherText ++ [c]
    else if isupper c then
      let lower_c := tolower c
      if mapCount substitutionMap lower_c then
        cipherText ++ ([c] ++ mapAt substitutionMap lower_c [])
      else cipherText ++ [c]
    else cipherText ++ [c]) []

/-- The key loop shared by `applyShift` and `reverseShift`:
`shifts.push_back(tolower(k) - 'a')` for each key character. -/
def keyShifts (key : Str) : List Int :=
  key.foldl (fun shifts k => shifts ++ [(tolower k : Int) - 97]) []

/-- The text loop of `applyShift`, with state `shiftedText`, `keyIndex`. -/
def applyShiftLoop (shifts : List Int) : Str → Str → Nat → Except Fault Str
  | [], shiftedText, _ => Except.ok shiftedText
  | c :: rest, shiftedText, keyIndex =>
    if shifts.length = 0 then Except.error Fault.divisionByZero
    else
      let shift := shifts.getD (keyIndex % shifts.length) 0
      applyShiftLoop shifts rest (shiftedText ++ [toChar ((c : Int) + shift)]) (keyIndex + 1)

/-- The function `applyShift`. -/
def applyShift (text key : Str) : Except Fault Str :=
  applyShiftLoop (keyShifts key) text [] 0

/-- The inner loop of the fill of `applyTransposition`:
`for (j; j < cols && index < size; ++j) grid[i][j] = shiftedText[index++]`. -/
def fillRow (shiftedText : Str) (cols i : Nat) :
    Nat → Nat → List (List Nat) × Nat → List (List Nat) × Nat
  | 0, _, st => st
  | fuel + 1, j, (grid, index) =>
    if j < cols ∧ index < shiftedText.length then
      fillRow shiftedText cols i fuel (j + 1)
        (gridSet grid i j (shiftedText.getD index 0), index + 1)
    else (grid, index)

/-- The function `applyTransposition`. -/
def applyTransposition (shiftedText : Str) : Str :=
  let rows := 3
  let cols := (shiftedText.length + rows - 1) / rows
  let grid := mkGrid rows cols
  let filled := (List.range rows).foldl
    (fun st i => fillRow shiftedText cols i cols 0 st) (grid, 0)
  (List.range cols).foldl (fun cipherText j =>
    (List.range rows).foldl (fun cipherText i => cipherText ++ [gridGet filled.1 i j])
      cipherText) []

/-- The inner loop of the fill of `reverseTransposition`:
`for (i; i < rows && index < size; ++i) grid[i][j] = cipherText[index++]`. -/
def fillCol (cipherText : Str) (rows j : Nat) :
    Nat → Nat → List (List Nat) × Nat → List (List Nat) × Nat
  | 0, _, st => st
  | fuel + 1, i, (grid, index) =>
    if i < rows ∧ index < cipherText.length then
      fillCol cipherText rows j fuel (i + 1)
        (gridSet grid i j (cipherText.getD index 0), index + 1)
    else (grid, index)

/-- The function `reverseTransposition` (`originalLength` is not negative). -/
def reverseTransposition (cipherText : Str) (originalLength : Nat) : Str :=
  let rows := 3
  let cols := (originalLength + rows - 1) / rows
  let grid := mkGrid rows cols
  let filled := (List.range cols).foldl
    (fun st j => fillCol cipherText rows j rows 0 st) (grid, 0)
  let plainText := (List.range rows).foldl (fun plainText i =>
    (List.range cols).foldl (fun plainText j => plainText ++ [gridGet filled.1 i j])
      plainText) []
  plainText.take originalLength

/-- The text loop of `reverseShift`, with state `originalText`, `keyIndex`. -/
def reverseShiftLoop (shifts : List Int) : Str → Str → Nat → Except Fault Str
  | [], originalText, _ => Except.ok originalText
  | c :: rest, originalText, keyIndex =>
    if shifts.length = 0 then Except.error Fault.divisionByZero
    else
      let shift := shifts.getD (keyIndex % shifts.length) 0
      reverseShiftLoop shifts rest (originalText ++ [toChar ((c : Int) - shift)]) (keyIndex + 1)

/-- The function `reverseShift`. -/
def reverseShift (shiftedText key : Str) : Except Fault Str :=
  reverseShiftLoop (keyShifts key) shiftedText [] 0

/-- The loop of `reverseSubstitution`, with state `i`, `plainText`; the global
reverse map is a parameter. The counter `i` advances by at least one each
round, so `cipherText.length` rounds of fuel reach the end of the text. -/
def reverseSubstitutionLoop (rmap : List (Str × Nat)) (cipherText : Str) :
    Nat → Nat → Str → Str
  | 0, _, plainText => plainText
  | fuel + 1, i, plainText =>
    if i < cipherText.length then
      let c := cipherText.getD i 0
      if isupper c ∧ i + 1 < cipherText.length ∧
          mapCount rmap [cipherText.getD (i + 1) 0] then
        reverseSubstitutionLoop rmap cipherText fuel (i + 2) (plainText ++ [c])
      else
        let sub_key := [c]
        if mapCount rmap sub_key then
          reverseSubstitutionLoop rmap cipherText fuel (i + 1) (plainText ++ [mapAt rmap sub_key 0])
        else
          reverseSubstitutionLoop rmap cipherText fuel (i + 1) (plainText ++ [c])
    else plainText

/-- The function `reverseSubstitution`, reading the global reverse map `rmap`. -/
def reverseSubstitution (rmap : List (Str × Nat)) (cipherText : Str) : Str :=
  reverseSubstitutionLoop rmap cipherText cipherText.length 0 []

end Cipher

namespace Cyber

/-- The function `convertKeyToShifts` of `cyber.cpp`. -/
def convertKeyToShifts (key : Str) : List Int :=
  key.foldl (fun shifts c => shifts ++ [(tolower c : Int) - 97]) []

/-- The text loop of `applyShift` of `cyber.cpp`, with state `shiftedText`,
`keyIndex`. -/
def applyShiftLoop (shifts : List Int) : Str → Str → Nat → Except Fault Str
  | [], shiftedText, _ => Except.ok shiftedText
  | c :: rest, shiftedText, keyIndex =>
    let keyLength := shifts.length
    if keyIndex < shifts.length then
      let shift := shifts.getD keyIndex 0
      if keyLength = 0 then Except.error Fault.divisionByZero
      else
        applyShiftLoop shifts rest (shiftedText ++ [toChar ((c : Int) + shift)])
          ((keyIndex + 1) % keyLength)
    else Except.error Fault.indexOutOfRange

/-- The function `applyShift` of `cyber.cpp`. -/
def applyShift (text key : Str) : Except Fault Str :=
  applyShiftLoop (convertKeyToShifts key) text [] 0

/-- The function `applySubstitution` of `cyber.cpp`: the two `switch`
statements, case by case (`'a'` is 97, `"!"` is 33, `"A!"` is 65, 33). -/
def applySubstitution (plaintext : Str) : Str :=
  plaintext.foldl (fun cipherText c =>
    if islower c then
      match c with
      | 97 => cipherText ++ [33]
      | 98 => cipherText ++ [34]
      | 99 => cipherText ++ [35]
      | 100 => cipherText ++ [36]
      | 101 => cipherText ++ [37]
      | 102 => cipherText ++ [38]
      | 103 => cipherText ++ [39]
      | 104 => cipherText ++ [40]
      | 105 => cipherText ++ [41]
      | 106 => cipherText ++ [42]
      | 107 => cipherText ++ [43]
      | 108 => cipherText ++ [44]
      | 109 => cipherText ++ [45]
      | 110 => cipherText ++ [46]
      | 111 => cipherText ++ [47]
      | 112 => cipherText ++ [48]
      | 113 => cipherText ++ [49]
      | 114 => cipherText ++ [50]
      | 115 => cipherText ++ [51]
      | 116 => cipherText ++ [52]
      | 117 => cipherText ++ [53]
      | 118 => cipherText ++ [54]
      | 119 => cipherText ++ [55]
      | 120 => cipherText ++ [56]
      | 121 => cipherText ++ [57]
      | 122 => cipherText ++ [58]
      | _ => cipherText ++ [c]
    else if isupper c then
      match c with
      | 65 => cipherText ++ [65, 33]
      | 66 => cipherText ++ [66, 34]
      | 67 => cipherText ++ [67, 35]
      | 68 => cipherText ++ [68, 36]
      | 69 => cipherText ++ [69, 37]
      | 70 => cipherText ++ [70, 38]
      | 71 => cipherText ++ [71, 39]
      | 72 => cipherText ++ [72, 40]
      | 73 => cipherText ++ [73, 41]
      | 74 => cipherText ++ [74, 42]
      | 75 => cipherText ++ [75, 43]
      | 76 => cipherText ++ [76, 44]
      | 77 => cipherText ++ [77, 45]
      | 78 => cipherText ++ [78, 46]
      | 79 => cipherText ++ [79, 47]
      | 80 => cipherText ++ [80, 48]
      | 81 => cipherText ++ [81, 49]
      | 82 => cipherText ++ [82, 50]
      | 83 => cipherText ++ [83, 51]
      | 84 => cipherText ++ [84, 52]
      | 85 => cipherText ++ [85, 53]
      | 86 => cipherText ++ [86, 54]
      | 87 => cipherText ++ [87, 55]
      | 88 => cipherText ++ [88, 56]
      | 89 => cipherText ++ [89, 57]
      | 90 => cipherText ++ [90, 58]
      | _ => cipherText ++ [c]
    else cipherText ++ [c]) []

/-- The text loop of `reverseShift` of `cyber.cpp`, with state `originalText`,
`keyIndex`. -/
def reverseShiftLoop (shifts : List Int) : Str → Str → Nat → Except Fault Str
  | [], originalText, _ => Except.ok originalText
  | c :: rest, originalText, keyIndex =>
    let keyLength := shifts.length
    if keyIndex < shifts.length then
      let shift := shifts.getD keyIndex 0
      if keyLength = 0 then Except.error Fault.divisionByZero
      else
        reverseShiftLoop shifts rest (originalText ++ [toChar ((c : Int) - shift)])
          ((keyIndex + 1) % keyLength)
    else Except.error Fault.indexOutOfRange

/-- The function `reverseShift` of `cyber.cpp`. -/
def reverseShift (shiftedText key : Str) : Except Fault Str :=
  reverseShiftLoop (convertKeyToShifts key) shiftedText [] 0

/-- The inner loop of the fill of `applyTransposition` of `cyber.cpp`:
`for (j; j < cols && index < size; ++j) grid[i][j] = shiftedText[index++]`. -/
def fillRow (shiftedText : Str) (cols i : Nat) :
    Nat → Nat → List (List Nat) × Nat → List (List Nat) × Nat
  | 0, _, st => st
  | fuel + 1, j, (grid, index) =>
    if j < cols ∧ index < shiftedText.length then
      fillRow shiftedText cols i fuel (j + 1)
        (gridSet grid i j (shiftedText.getD index 0), index + 1)
    else (grid, index)

/-- The function `applyTransposition` of `cyber.cpp`. -/
def applyTransposition (shiftedText : Str) : Str :=
  let rows := 3
  let cols := (shiftedText.length + rows - 1) / rows
  let grid := mkGrid rows cols
  let filled := (List.range rows).foldl
    (fun st i => fillRow shiftedText cols i cols 0 st) (grid, 0)
  (List.range cols).foldl (fun cipherText j =>
    (List.range rows).foldl (fun cipherText i => cipherText ++ [gridGet filled.1 i j])
      cipherText) []

end Cyber

/-! ## Closed forms of the loops and predicates of the statements -/

/-- Closed form of the text loop of `applyShift` entered with counter
`keyIndex`: the characters it appends. -/
def addShifts (shifts : List Int) : Nat → Str → Str
  | _, [] => []
  | keyIndex, c :: rest =>
    toChar ((c : Int) + shifts.getD (keyIndex % shifts.length) 0)
      :: addShifts shifts (keyIndex + 1) rest

/-- Closed form of the text loop of `reverseShift` entered with counter
`keyIndex`: the characters it appends. -/
def subShifts (shifts : List Int) : Nat → Str → Str
  | _, [] => []
  | keyIndex, c :: rest =>
    toChar ((c : Int) - shifts.getD (keyIndex % shifts.length) 0)
      :: subShifts shifts (keyIndex + 1) rest

/-- What one round of the loop of `applySubstitution` appends for `c`. -/
def Cipher.substitutionOf (c : Nat) : Str :=
  if islower c then
    if mapCount Cipher.substitutionMap c then mapAt Cipher.substitutionMap c [] else [c]
  else if isupper c then
    if mapCount Cipher.substitutionMap (tolower c) then
      [c] ++ mapAt Cipher.substitutionMap (tolower c) []
    else [c]
  else [c]

/-- What the second branch of the loop of `reverseSubstitution` appends for `c`. -/
def Cipher.decodeOne (rmap : List (Str × Nat)) (c : Nat) : Nat :=
  if mapCount rmap [c] then mapAt rmap [c] 0 else c

/-- Closed form of the loop of `reverseSubstitution` on the text that is left
from position `i` on. -/
def Cipher.decodeScan (rmap : List (Str × Nat)) : Str → Str
  | [] => []
  | [c] => [Cipher.decodeOne rmap c]
  | c :: n :: rest =>
    if isupper c ∧ mapCount rmap [n] then c :: Cipher.decodeScan rmap rest
    else Cipher.decodeOne rmap c :: Cipher.decodeScan rmap (n :: rest)

/-- The code units of the 26 symbols of the table, `'!'` to `':'`. -/
def inSymbolRange (c : Nat) : Prop := 33 ≤ c ∧ c ≤ 58

instance (c : Nat) : Decidable (inSymbolRange c) := by
  unfold inSymbolRange; infer_instance

/-- No character of the string is one of the 26 symbols. -/
def SymbolFree (s : Str) : Prop := ∀ c ∈ s, ¬ inSymbolRange c

instance (s : Str) : Decidable (SymbolFree s) := by
  unfold SymbolFree; infer_instance

/-- A grid of `rows` rows, each of `cols` cells. -/
def GridShape (grid : List (List Nat)) (rows cols : Nat) : Prop :=
  grid.length = rows ∧ ∀ i, i < rows → (grid.getD i []).length = cols

/-- `toupper` of the "C" locale. -/
def toupper (c : Nat) : Nat := if islower c then c - 32 else c

/-- An ASCII letter, `isalpha` of the "C" locale. -/
def isalpha (c : Nat) : Bool := isupper c || islower c

/-- The symbol the table of the specification pairs with the lowercase
letter `c`: `a` with `!`, `b` with `"`, and so on to `z` with `:`. -/
def Spec.symbolOf (c : Nat) : Nat := 33 + (c - 97)

/-- The per-character rule of the specification for the substitution encode:
a lowercase letter gives its symbol, an uppercase letter gives itself followed
by the symbol of its lowercase form, any other character gives itself. -/
def Spec.encodeChar (c : Nat) : Str :=
  if 97 ≤ c ∧ c ≤ 122 then [Spec.symbolOf c]
  else if 65 ≤ c ∧ c ≤ 90 then [c, Spec.symbolOf (tolower c)]
  else [c]

/-- One of the 26 symbols of the table of the specification. -/
def Spec.isTableSymbol (c : Nat) : Bool := decide (33 ≤ c) && decide (c ≤ 58)

/-- The lowercase letter the table of the specification pairs with the
symbol `c`. -/
def Spec.letterOf (c : Nat) : Nat := 97 + (c - 33)

/-- The left-to-right scan of the specification for the substitution decode:
an uppercase letter followed by a table symbol is emitted alone and both
characters are consumed; otherwise a table symbol is replaced by its letter;
otherwise the character is passed through. -/
def Spec.decode : Str → Str
  | [] => []
  | [c] => [if Spec.isTableSymbol c then Spec.letterOf c else c]
  | c :: n :: rest =>
    if (65 ≤ c ∧ c ≤ 90) ∧ Spec.isTableSymbol n = true then c :: Spec.decode rest
    else (if Spec.isTableSymbol c then Spec.letterOf c else c) :: Spec.decode (n :: rest)

/-! ## The shift stage -/

theorem foldl_append_singleton {α β : Type} (f : α → β) (l : List α) (acc : List β) :
    l.foldl (fun a x => a ++ [f x]) acc = acc ++ l.map f := by
  induction l generalizing acc with
  | nil => simp
  | cons x xs ih => simp [ih]

theorem foldl_append_flatMap {α β : Type} (f : α → List β) (l : List α) (acc : List β) :
    l.foldl (fun a x => a ++ f x) acc = acc ++ l.flatMap f := by
  induction l generalizing acc with
  | nil => simp
  | cons x xs ih => simp [ih]

theorem toChar_lt (x : Int) : toChar x < 256 := by
  unfold toChar; omega

theorem toChar_sub_add (c : Nat) (s : Int) (h : c < 256) :
    toChar ((toChar ((c : Int) + s) : Int) - s) = c := by
  unfold toChar; omega

theorem Cipher.keyShifts_eq_map (key : Str) :
    Cipher.keyShifts key = key.map (fun k => (tolower k : Int) - 97) := by
  unfold Cipher.keyShifts
  rw [foldl_append_singleton]; simp

theorem Cipher.length_keyShifts (key : Str) : (Cipher.keyShifts key).length = key.length := by
  simp [Cipher.keyShifts_eq_map]

theorem length_addShifts (shifts : List Int) (keyIndex : Nat) (text : Str) :
    (addShifts shifts keyIndex text).length = text.length := by
  induction text generalizing keyIndex with
  | nil => rfl
  | cons c rest ih => simp [addShifts, ih]

theorem length_subShifts (shifts : List Int) (keyIndex : Nat) (text : Str) :
    (subShifts shifts keyIndex text).length = text.length := by
  induction text generalizing keyIndex with
  | nil => rfl
  | cons c rest ih => simp [subShifts, ih]

theorem wellFormed_addShifts (shifts : List Int) (keyIndex : Nat) (text : Str) :
    WellFormed (addShifts shifts keyIndex text) := by
  induction text generalizing keyIndex with
  | nil => intro c hc; simp [addShifts] at hc
  | cons c rest ih =>
    intro d hd
    simp only [addShifts, List.mem_cons] at hd
    rcases hd with rfl | hd
    · exact toChar_lt _
    · exact ih _ d hd

theorem subShifts_addShifts (shifts : List Int) (keyIndex : Nat) (text : Str)
    (h : WellFormed text) : subShifts shifts keyIndex (addShifts shifts keyIndex text) = text := by
  induction text generalizing keyIndex with
  | nil => rfl
  | cons c rest ih =>
    have hc : c < 256 := h c (List.mem_cons_self _ _)
    have hr : WellFormed rest := fun d hd => h d (List.mem_cons_of_mem _ hd)
    simp only [addShifts, subShifts, ih _ hr, toChar_sub_add _ _ hc]

theorem Cipher.applyShiftLoop_eq (shifts : List Int) (hs : shifts.length ≠ 0) (text acc : Str)
    (keyIndex : Nat) :
    Cipher.applyShiftLoop shifts text acc keyIndex
      = Except.ok (acc ++ addShifts shifts keyIndex text) := by
  induction text generalizing acc keyIndex with
  | nil => simp [Cipher.applyShiftLoop, addShifts]
  | cons c rest ih => simp [Cipher.applyShiftLoop, addShifts, hs, ih]

theorem Cipher.reverseShiftLoop_eq (shifts : List Int) (hs : shifts.length ≠ 0) (text acc : Str)
    (keyIndex : Nat) :
    Cipher.reverseShiftLoop shifts text acc keyIndex
      = Except.ok (acc ++ subShifts shifts keyIndex text) := by
  induction text generalizing acc keyIndex with
  | nil => simp [Cipher.reverseShiftLoop, subShifts]
  | cons c rest ih => simp [Cipher.reverseShiftLoop, subShifts, hs, ih]

theorem Cipher.applyShift_eq (text key : Str) (hk : key ≠ []) :
    Cipher.applyShift text key = Except.ok (addShifts (Cipher.keyShifts key) 0 text) := by
  have hs : (Cipher.keyShifts key).length ≠ 0 := by
    rw [Cipher.length_keyShifts]; exact fun h => hk (List.length_eq_zero.mp h)
  simp [Cipher.applyShift, Cipher.applyShiftLoop_eq _ hs]

theorem Cipher.reverseShift_eq (text key : Str) (hk : key ≠ []) :
    Cipher.reverseShift text key = Except.ok (subShifts (Cipher.keyShifts key) 0 text) := by
  have hs : (Cipher.keyShifts key).length ≠ 0 := by
    rw [Cipher.length_keyShifts]; exact fun h => hk (List.length_eq_zero.mp h)
  simp [Cipher.reverseShift, Cipher.reverseShiftLoop_eq _ hs]

theorem Cipher.applyShift_of_key_nil (text : Str) :
    Cipher.applyShift text []
      = if text = [] then Except.ok [] else Except.error Fault.divisionByZero := by
  cases text with
  | nil => rfl
  | cons c rest => simp [Cipher.applyShift, Cipher.keyShifts, Cipher.applyShiftLoop]

theorem Cyber.applyShift_cyber_of_key_nil (text : Str) :
    Cyber.applyShift text []
      = if text = [] then Except.ok [] else Except.error Fault.indexOutOfRange := by
  cases text with
  | nil => rfl
  | cons c rest => simp [Cyber.applyShift, Cyber.convertKeyToShifts, Cyber.applyShiftLoop]

/-! ## The substitution stage -/

theorem Cipher.lookup_substitutionMap (c : Nat) (h1 : 97 ≤ c) (h2 : c ≤ 122) :
    Cipher.substitutionMap.lookup c = some [c - 64] := by
  interval_cases c <;> rfl

theorem Cipher.substitutionOf_lower (c : Nat) (h : islower c = true) :
    Cipher.substitutionOf c = [c - 64] := by
  have hc : 97 ≤ c ∧ c ≤ 122 := by simpa [islower] using h
  simp [Cipher.substitutionOf, h, mapCount, mapAt, Cipher.lookup_substitutionMap c hc.1 hc.2]

theorem Cipher.substitutionOf_upper (c : Nat) (h : isupper c = true) :
    Cipher.substitutionOf c = [c, c - 32] := by
  have hc : 65 ≤ c ∧ c ≤ 90 := by simpa [isupper] using h
  have hl : islower c = false := by simp [islower]; omega
  have ht : tolower c = c + 32 := by simp [tolower, h]
  have := Cipher.lookup_substitutionMap (c + 32) (by omega) (by omega)
  simp [Cipher.substitutionOf, h, hl, ht, mapCount, mapAt, this]

theorem Cipher.substitutionOf_other (c : Nat) (h1 : islower c = false) (h2 : isupper c = false) :
    Cipher.substitutionOf c = [c] := by
  simp [Cipher.substitutionOf, h1, h2]

theorem Cipher.applySubstitution_eq_flatMap (plaintext : Str) :
    Cipher.applySubstitution plaintext = plaintext.flatMap Cipher.substitutionOf := by
  have hbody : (fun (cipherText : Str) (c : Nat) =>
      if islower c then
        if mapCount Cipher.substitutionMap c then cipherText ++ mapAt Cipher.substitutionMap c []
        else cipherText ++ [c]
      else if isupper c then
        let lower_c := tolower c
        if mapCount Cipher.substitutionMap lower_c then
          cipherText ++ ([c] ++ mapAt Cipher.substitutionMap lower_c [])
        else cipherText ++ [c]
      else cipherText ++ [c])
      = fun cipherText c => cipherText ++ Cipher.substitutionOf c := by
    funext cipherText c
    unfold Cipher.substitutionOf
    dsimp only
    split_ifs <;> simp
  unfold Cipher.applySubstitution
  rw [hbody, foldl_append_flatMap]; simp

theorem Cipher.reverseSubstitutionMap_eq :
    Cipher.reverseSubstitutionMap =
      [([33], 97), ([34], 98), ([35], 99), ([36], 100), ([37], 101), ([38], 102),
       ([39], 103), ([40], 104), ([41], 105), ([42], 106), ([43], 107), ([44], 108),
       ([45], 109), ([46], 110), ([47], 111), ([48], 112), ([49], 113), ([50], 114),
       ([51], 115), ([52], 116), ([53], 117), ([54], 118), ([55], 119), ([56], 120),
       ([57], 121), ([58], 122)] := by
  decide

theorem Cipher.lookup_reverseSubstitutionMap_of_mem (n : Nat) (h1 : 33 ≤ n) (h2 : n ≤ 58) :
    Cipher.reverseSubstitutionMap.lookup [n] = some (n + 64) := by
  rw [Cipher.reverseSubstitutionMap_eq]
  interval_cases n <;> rfl

theorem Cipher.lookup_reverseSubstitutionMap_of_not_mem (n : Nat) (h : ¬ inSymbolRange n) :
    Cipher.reverseSubstitutionMap.lookup [n] = none := by
  rw [List.lookup_eq_none_iff]
  intro p hp
  have hall : ∀ e ∈ Cipher.reverseSubstitutionMap, ∀ x ∈ e.1, inSymbolRange x := by
    rw [Cipher.reverseSubstitutionMap_eq]; decide
  have hne : [n] ≠ p.1 := by
    intro heq
    exact h (hall p hp n (by rw [← heq]; simp))
  simpa using hne

theorem Cipher.mapCount_reverseSubstitutionMap (n : Nat) :
    mapCount Cipher.reverseSubstitutionMap [n] = decide (inSymbolRange n) := by
  by_cases h : inSymbolRange n
  · simp [mapCount, Cipher.lookup_reverseSubstitutionMap_of_mem n h.1 h.2, h]
  · simp [mapCount, Cipher.lookup_reverseSubstitutionMap_of_not_mem n h, h]

theorem Cipher.decodeOne_of_mem (n : Nat) (h : inSymbolRange n) :
    Cipher.decodeOne Cipher.reverseSubstitutionMap n = n + 64 := by
  simp [Cipher.decodeOne, mapCount, mapAt, Cipher.lookup_reverseSubstitutionMap_of_mem n h.1 h.2]

theorem Cipher.decodeOne_of_not_mem (n : Nat) (h : ¬ inSymbolRange n) :
    Cipher.decodeOne Cipher.reverseSubstitutionMap n = n := by
  simp [Cipher.decodeOne, mapCount, Cipher.lookup_reverseSubstitutionMap_of_not_mem n h]

theorem Cipher.decodeScan_cons_of_not_upper (rmap : List (Str × Nat)) (c : Nat) (rest : Str)
    (h : isupper c = false) :
    Cipher.decodeScan rmap (c :: rest)
      = Cipher.decodeOne rmap c :: Cipher.decodeScan rmap rest := by
  cases rest with
  | nil => simp [Cipher.decodeScan]
  | cons n rest => simp [Cipher.decodeScan, h]

theorem Cipher.reverseSubstitutionLoop_eq (rmap : List (Str × Nat)) (cipherText : Str)
    (fuel i : Nat) (plainText : Str) (hfuel : cipherText.length - i ≤ fuel) :
    Cipher.reverseSubstitutionLoop rmap cipherText fuel i plainText
      = plainText ++ Cipher.decodeScan rmap (cipherText.drop i) := by
  induction fuel generalizing i plainText with
  | zero =>
    have : cipherText.length ≤ i := by omega
    simp [Cipher.reverseSubstitutionLoop, List.drop_eq_nil_of_le this, Cipher.decodeScan]
  | succ fuel ih =>
    unfold Cipher.reverseSubstitutionLoop
    by_cases hi : i < cipherText.length
    · have hd : cipherText.drop i = cipherText[i] :: cipherText.drop (i + 1) :=
        List.drop_eq_getElem_cons hi
      have hg : cipherText.getD i 0 = cipherText[i] := List.getD_eq_getElem _ _ hi
      by_cases hn : i + 1 < cipherText.length
      · have hd2 : cipherText.drop (i + 1) = cipherText[i + 1] :: cipherText.drop (i + 2) :=
          List.drop_eq_getElem_cons hn
        have hg2 : cipherText.getD (i + 1) 0 = cipherText[i + 1] := List.getD_eq_getElem _ _ hn
        simp only [hi, if_true, hg, hg2, hn, true_and]
        rw [hd, hd2]
        by_cases hp : isupper cipherText[i] = true ∧
            mapCount rmap [cipherText[i + 1]] = true
        · rw [if_pos hp, ih _ _ (by omega)]
          simp [Cipher.decodeScan, hp]
        · rw [if_neg hp]
          simp only [Cipher.decodeScan, if_neg hp, Cipher.decodeOne]
          split_ifs <;> rw [ih _ _ (by omega), hd2] <;> simp
      · have hd2 : cipherText.drop (i + 1) = [] := List.drop_eq_nil_of_le (by omega)
        simp only [hi, if_true, hg, hn, false_and, and_false, if_false]
        rw [hd, hd2]
        simp only [Cipher.decodeScan, Cipher.decodeOne]
        split_ifs <;> rw [ih _ _ (by omega), hd2] <;> simp [Cipher.decodeScan]
    · have : cipherText.length ≤ i := by omega
      simp [hi, List.drop_eq_nil_of_le this, Cipher.decodeScan]

theorem Cipher.reverseSubstitution_eq (rmap : List (Str × Nat)) (cipherText : Str) :
    Cipher.reverseSubstitution rmap cipherText = Cipher.decodeScan rmap cipherText := by
  unfold Cipher.reverseSubstitution
  rw [Cipher.reverseSubstitutionLoop_eq _ _ _ _ _ (by omega)]
  simp

theorem Cipher.decodeScan_flatMap_substitutionOf (s : Str) (h : SymbolFree s) :
    Cipher.decodeScan Cipher.reverseSubstitutionMap (s.flatMap Cipher.substitutionOf) = s := by
  induction s with
  | nil => rfl
  | cons c rest ih =>
    have hc : ¬ inSymbolRange c := h c (List.mem_cons_self _ _)
    have hr : SymbolFree rest := fun d hd => h d (List.mem_cons_of_mem _ hd)
    rw [List.flatMap_cons]
    by_cases hl : islower c = true
    · have hb : 97 ≤ c ∧ c ≤ 122 := by simpa [islower] using hl
      have hu : isupper (c - 64) = false := by simp [isupper]; omega
      have hs : inSymbolRange (c - 64) := ⟨by omega, by omega⟩
      rw [Cipher.substitutionOf_lower c hl, List.singleton_append,
        Cipher.decodeScan_cons_of_not_upper _ _ _ hu, Cipher.decodeOne_of_mem _ hs, ih hr]
      congr 1; omega
    · by_cases hu : isupper c = true
      · have hb : 65 ≤ c ∧ c ≤ 90 := by simpa [isupper] using hu
        have hs : inSymbolRange (c - 32) := ⟨by omega, by omega⟩
        rw [Cipher.substitutionOf_upper c hu]
        simp [Cipher.decodeScan, hu, Cipher.mapCount_reverseSubstitutionMap, hs, ih hr]
      · have hl2 : islower c = false := by simpa using hl
        have hu2 : isupper c = false := by simpa using hu
        rw [Cipher.substitutionOf_other c hl2 hu2, List.singleton_append,
          Cipher.decodeScan_cons_of_not_upper _ _ _ hu2, Cipher.decodeOne_of_not_mem _ hc, ih hr]

/-! ## Grids -/

theorem gridShape_mkGrid (rows cols : Nat) : GridShape (mkGrid rows cols) rows cols := by
  refine ⟨by simp [mkGrid], ?_⟩
  intro i hi
  simp [mkGrid, List.getD_eq_getElem?_getD, List.getElem?_replicate, hi]

theorem gridGet_mkGrid (rows cols i j : Nat) (hi : i < rows) (hj : j < cols) :
    gridGet (mkGrid rows cols) i j = 32 := by
  simp [gridGet, mkGrid, List.getD_eq_getElem?_getD, List.getElem?_replicate, hi, hj]

theorem gridShape_gridSet (grid : List (List Nat)) (rows cols i j v : Nat)
    (h : GridShape grid rows cols) : GridShape (gridSet grid i j v) rows cols := by
  obtain ⟨hl, hr⟩ := h
  refine ⟨by simp [gridSet, hl], ?_⟩
  intro k hk
  have := hr k hk
  simp only [gridSet, List.getD_eq_getElem?_getD, List.getElem?_set] at this ⊢
  by_cases hik : i = k
  · subst hik
    have hi2 : i < grid.length := by omega
    simp only [List.getElem?_eq_getElem hi2, Option.getD_some] at this
    simp [hl, hk, this]
  · simp [hik, this]

theorem gridGet_gridSet (grid : List (List Nat)) (rows cols i j v a b : Nat)
    (h : GridShape grid rows cols) (hi : i < rows) (hj : j < cols) :
    gridGet (gridSet grid i j v) a b = if a = i ∧ b = j then v else gridGet grid a b := by
  obtain ⟨hl, hr⟩ := h
  have hlen := hr i hi
  simp only [gridGet, gridSet, List.getD_eq_getElem?_getD, List.getElem?_set] at hlen ⊢
  by_cases hia : i = a
  · subst hia
    by_cases hjb : j = b
    · subst hjb
      have hi2 : i < grid.length := by omega
      simp only [List.getElem?_eq_getElem hi2, Option.getD_some] at hlen
      simp [hl, hi, hlen, hj]
    · have hjb2 : ¬ b = j := fun e => hjb e.symm
      simp [hl, hi, hjb, hjb2]
  · have hia2 : ¬ a = i := fun e => hia e.symm
    simp [hia, hia2]

/-! ## Reading a grid out -/

theorem length_flatMap_range_map {β : Type} (a b : Nat) (f : Nat → Nat → β) :
    ((List.range a).flatMap (fun x => (List.range b).map (f x))).length = a * b := by
  induction a with
  | zero => simp
  | succ a ih =>
    rw [List.range_succ, List.flatMap_append, List.length_append, ih]
    simp [Nat.succ_mul]

theorem getElem?_flatMap_range_map {β : Type} (a b : Nat) (f : Nat → Nat → β) (m : Nat) :
    ((List.range a).flatMap (fun x => (List.range b).map (f x)))[m]?
      = if m < a * b then some (f (m / b) (m % b)) else none := by
  induction a with
  | zero => simp
  | succ a ih =>
    rw [List.range_succ, List.flatMap_append, List.getElem?_append,
      length_flatMap_range_map, ih]
    by_cases h1 : m < a * b
    · have h2 : m < (a + 1) * b := by rw [Nat.succ_mul]; omega
      simp [h1, h2]
    · have hge : a * b ≤ m := by omega
      by_cases h2 : m < (a + 1) * b
      · have hb : m - a * b < b := by rw [Nat.succ_mul] at h2; omega
        have hdiv : m / b = a := Nat.div_eq_of_lt_le hge h2
        have hmod : m % b = m - a * b := by
          have := Nat.div_add_mod m b
          rw [hdiv, Nat.mul_comm] at this
          omega
        simp [h1, h2, hb, hdiv, hmod, List.getElem?_range hb]
      · have hb : ¬ m - a * b < b := by rw [Nat.succ_mul] at h2; omega
        simp [h1, h2]
        omega

theorem foldl_range_foldl_range {β : Type} (a b : Nat) (f : Nat → Nat → β) :
    (List.range a).foldl (fun acc x =>
      (List.range b).foldl (fun acc y => acc ++ [f x y]) acc) []
      = (List.range a).flatMap (fun x => (List.range b).map (f x)) := by
  have h : (fun (acc : List β) (x : Nat) =>
      (List.range b).foldl (fun acc y => acc ++ [f x y]) acc)
      = fun acc x => acc ++ (List.range b).map (f x) := by
    funext acc x
    exact foldl_append_singleton (f x) (List.range b) acc
  rw [h, foldl_append_flatMap]; simp

/-! ## The fill loops of the transposition stage -/

theorem Cipher.fillRow_spec (text : Str) (rows cols i : Nat) (hi : i < rows)
    (fuel j : Nat) (grid : List (List Nat)) (index : Nat)
    (hg : GridShape grid rows cols) (hf : cols ≤ j + fuel) :
    GridShape (Cipher.fillRow text cols i fuel j (grid, index)).1 rows cols ∧
    (Cipher.fillRow text cols i fuel j (grid, index)).2
      = (if index < text.length then min (index + (cols - j)) text.length else index) ∧
    ∀ a b, gridGet (Cipher.fillRow text cols i fuel j (grid, index)).1 a b
      = if a = i ∧ j ≤ b ∧ b < cols ∧ index + (b - j) < text.length
        then text.getD (index + (b - j)) 0 else gridGet grid a b := by
  induction fuel generalizing j grid index with
  | zero =>
    refine ⟨hg, ?_, ?_⟩
    · simp only [Cipher.fillRow]
      split_ifs <;> omega
    · intro a b
      simp only [Cipher.fillRow]
      rw [if_neg]; omega
  | succ fuel ih =>
    unfold Cipher.fillRow
    by_cases hc : j < cols ∧ index < text.length
    · rw [if_pos hc]
      obtain ⟨h1, h2, h3⟩ := ih (j + 1) (gridSet grid i j (text.getD index 0)) (index + 1)
        (gridShape_gridSet _ _ _ _ _ _ hg) (by omega)
      refine ⟨h1, ?_, ?_⟩
      · rw [h2]
        split_ifs <;> omega
      · intro a b
        rw [h3, gridGet_gridSet _ rows cols _ _ _ _ _ hg hi hc.1]
        by_cases hb : a = i ∧ j + 1 ≤ b ∧ b < cols ∧ index + 1 + (b - (j + 1)) < text.length
        · have hb2 : a = i ∧ j ≤ b ∧ b < cols ∧ index + (b - j) < text.length := by omega
          have he : index + 1 + (b - (j + 1)) = index + (b - j) := by omega
          rw [if_pos hb, if_pos hb2, he]
        · rw [if_neg hb]
          by_cases hab : a = i ∧ b = j
          · have hb2 : a = i ∧ j ≤ b ∧ b < cols ∧ index + (b - j) < text.length := by omega
            have he : index + (b - j) = index := by omega
            rw [if_pos hab, if_pos hb2, he]
          · have hb2 : ¬ (a = i ∧ j ≤ b ∧ b < cols ∧ index + (b - j) < text.length) := by omega
            rw [if_neg hab, if_neg hb2]
    · rw [if_neg hc]
      refine ⟨hg, ?_, ?_⟩
      · show index = _
        split_ifs <;> omega
      · intro a b
        show gridGet grid a b = _
        rw [if_neg]; omega

theorem Cipher.fillCol_spec (text : Str) (rows cols j : Nat) (hj : j < cols)
    (fuel i : Nat) (grid : List (List Nat)) (index : Nat)
    (hg : GridShape grid rows cols) (hf : rows ≤ i + fuel) :
    GridShape (Cipher.fillCol text rows j fuel i (grid, index)).1 rows cols ∧
    (Cipher.fillCol text rows j fuel i (grid, index)).2
      = (if index < text.length then min (index + (rows - i)) text.length else index) ∧
    ∀ a b, gridGet (Cipher.fillCol text rows j fuel i (grid, index)).1 a b
      = if b = j ∧ i ≤ a ∧ a < rows ∧ index + (a - i) < text.length
        then text.getD (index + (a - i)) 0 else gridGet grid a b := by
  induction fuel generalizing i grid index with
  | zero =>
    refine ⟨hg, ?_, ?_⟩
    · simp only [Cipher.fillCol]
      split_ifs <;> omega
    · intro a b
      simp only [Cipher.fillCol]
      rw [if_neg]; omega
  | succ fuel ih =>
    unfold Cipher.fillCol
    by_cases hc : i < rows ∧ index < text.length
    · rw [if_pos hc]
      obtain ⟨h1, h2, h3⟩ := ih (i + 1) (gridSet grid i j (text.getD index 0)) (index + 1)
        (gridShape_gridSet _ _ _ _ _ _ hg) (by omega)
      refine ⟨h1, ?_, ?_⟩
      · rw [h2]
        split_ifs <;> omega
      · intro a b
        rw [h3, gridGet_gridSet _ rows cols _ _ _ _ _ hg hc.1 hj]
        by_cases hb : b = j ∧ i + 1 ≤ a ∧ a < rows ∧ index + 1 + (a - (i + 1)) < text.length
        · have hb2 : b = j ∧ i ≤ a ∧ a < rows ∧ index + (a - i) < text.length := by omega
          have he : index + 1 + (a - (i + 1)) = index + (a - i) := by omega
          rw [if_pos hb, if_pos hb2, he]
        · rw [if_neg hb]
          by_cases hab : a = i ∧ b = j
          · have hb2 : b = j ∧ i ≤ a ∧ a < rows ∧ index + (a - i) < text.length := by omega
            have he : index + (a - i) = index := by omega
            rw [if_pos hab, if_pos hb2, he]
          · have hb2 : ¬ (b = j ∧ i ≤ a ∧ a < rows ∧ index + (a - i) < text.length) := by omega
            rw [if_neg hab, if_neg hb2]
    · rw [if_neg hc]
      refine ⟨hg, ?_, ?_⟩
      · show index = _
        split_ifs <;> omega
      · intro a b
        show gridGet grid a b = _
        rw [if_neg]; omega

theorem Cipher.fillRows_spec (text : Str) (rows cols k : Nat) (hk : k ≤ rows) :
    GridShape ((List.range k).foldl
        (fun st i => Cipher.fillRow text cols i cols 0 st) (mkGrid rows cols, 0)).1 rows cols ∧
    ((List.range k).foldl
        (fun st i => Cipher.fillRow text cols i cols 0 st) (mkGrid rows cols, 0)).2
      = min (k * cols) text.length ∧
    ∀ a b, a < rows → b < cols →
      gridGet ((List.range k).foldl
        (fun st i => Cipher.fillRow text cols i cols 0 st) (mkGrid rows cols, 0)).1 a b
      = if a < k ∧ a * cols + b < text.length then text.getD (a * cols + b) 0 else 32 := by
  induction k with
  | zero =>
    refine ⟨gridShape_mkGrid _ _, by simp, ?_⟩
    intro a b ha hb
    simp [gridGet_mkGrid _ _ _ _ ha hb]
  | succ k ih =>
    obtain ⟨h1, h2, h3⟩ := ih (by omega)
    rw [List.range_succ, List.foldl_append]
    simp only [List.foldl_cons, List.foldl_nil]
    rcases hst : (List.range k).foldl
        (fun st i => Cipher.fillRow text cols i cols 0 st) (mkGrid rows cols, 0) with ⟨g, idx⟩
    rw [hst] at h1 h2 h3
    simp only at h1 h2 h3
    obtain ⟨f1, f2, f3⟩ := Cipher.fillRow_spec text rows cols k (by omega) cols 0 g idx h1 (by omega)
    refine ⟨f1, ?_, ?_⟩
    · rw [f2, h2, Nat.succ_mul]
      split_ifs <;> omega
    · intro a b ha hb
      rw [f3, h3 a b ha hb]
      have hs : (k + 1) * cols = k * cols + cols := Nat.succ_mul k cols
      by_cases hak : a = k
      · subst hak
        by_cases hin : a * cols + b < text.length
        · have e1 : a = a ∧ 0 ≤ b ∧ b < cols ∧ idx + (b - 0) < text.length := by omega
          have e2 : a < a + 1 ∧ a * cols + b < text.length := by omega
          have e3 : idx + (b - 0) = a * cols + b := by omega
          rw [if_pos e1, if_pos e2, e3]
        · have e1 : ¬ (a = a ∧ 0 ≤ b ∧ b < cols ∧ idx + (b - 0) < text.length) := by omega
          have e2 : ¬ (a < a + 1 ∧ a * cols + b < text.length) := by omega
          have e4 : ¬ (a < a ∧ a * cols + b < text.length) := by omega
          rw [if_neg e1, if_neg e2, if_neg e4]
      · have e1 : ¬ (a = k ∧ 0 ≤ b ∧ b < cols ∧ idx + (b - 0) < text.length) := by omega
        rw [if_neg e1]
        by_cases hc : a < k ∧ a * cols + b < text.length
        · have e2 : a < k + 1 ∧ a * cols + b < text.length := by omega
          rw [if_pos hc, if_pos e2]
        · have e2 : ¬ (a < k + 1 ∧ a * cols + b < text.length) := by omega
          rw [if_neg hc, if_neg e2]

theorem Cipher.fillCols_spec (text : Str) (cols k : Nat) (hk : k ≤ cols) :
    GridShape ((List.range k).foldl
        (fun st j => Cipher.fillCol text 3 j 3 0 st) (mkGrid 3 cols, 0)).1 3 cols ∧
    ((List.range k).foldl
        (fun st j => Cipher.fillCol text 3 j 3 0 st) (mkGrid 3 cols, 0)).2
      = min (3 * k) text.length ∧
    ∀ a b, a < 3 → b < cols →
      gridGet ((List.range k).foldl
        (fun st j => Cipher.fillCol text 3 j 3 0 st) (mkGrid 3 cols, 0)).1 a b
      = if b < k ∧ 3 * b + a < text.length then text.getD (3 * b + a) 0 else 32 := by
  induction k with
  | zero =>
    refine ⟨gridShape_mkGrid _ _, by simp, ?_⟩
    intro a b ha hb
    simp [gridGet_mkGrid _ _ _ _ ha hb]
  | succ k ih =>
    obtain ⟨h1, h2, h3⟩ := ih (by omega)
    rw [List.range_succ, List.foldl_append]
    simp only [List.foldl_cons, List.foldl_nil]
    rcases hst : (List.range k).foldl
        (fun st j => Cipher.fillCol text 3 j 3 0 st) (mkGrid 3 cols, 0) with ⟨g, idx⟩
    rw [hst] at h1 h2 h3
    simp only at h1 h2 h3
    obtain ⟨f1, f2, f3⟩ := Cipher.fillCol_spec text 3 cols k (by omega) 3 0 g idx h1 (by omega)
    refine ⟨f1, ?_, ?_⟩
    · rw [f2, h2]
      split_ifs <;> omega
    · intro a b ha hb
      rw [f3, h3 a b ha hb]
      by_cases hbk : b = k
      · subst hbk
        by_cases hin : 3 * b + a < text.length
        · have e1 : b = b ∧ 0 ≤ a ∧ a < 3 ∧ idx + (a - 0) < text.length := by omega
          have e2 : b < b + 1 ∧ 3 * b + a < text.length := by omega
          have e3 : idx + (a - 0) = 3 * b + a := by omega
          rw [if_pos e1, if_pos e2, e3]
        · have e1 : ¬ (b = b ∧ 0 ≤ a ∧ a < 3 ∧ idx + (a - 0) < text.length) := by omega
          have e2 : ¬ (b < b + 1 ∧ 3 * b + a < text.length) := by omega
          have e4 : ¬ (b < b ∧ 3 * b + a < text.length) := by omega
          rw [if_neg e1, if_neg e2, if_neg e4]
      · have e1 : ¬ (b = k ∧ 0 ≤ a ∧ a < 3 ∧ idx + (a - 0) < text.length) := by omega
        rw [if_neg e1]
        by_cases hc : b < k ∧ 3 * b + a < text.length
        · have e2 : b < k + 1 ∧ 3 * b + a < text.length := by omega
          rw [if_pos hc, if_pos e2]
        · have e2 : ¬ (b < k + 1 ∧ 3 * b + a < text.length) := by omega
          rw [if_neg hc, if_neg e2]

/-! ## The transposition stage -/

theorem mod_three_cell (j i : Nat) (hi : i < 3) : (3 * j + i) % 3 = i := by omega

theorem div_three_cell (j i : Nat) (hi : i < 3) : (3 * j + i) / 3 = j := by omega

theorem Cipher.applyTransposition_eq (text : Str) :
    Cipher.applyTransposition text
      = (List.range ((text.length + 3 - 1) / 3)).flatMap (fun j => (List.range 3).map (fun i =>
          gridGet ((List.range 3).foldl
            (fun st i => Cipher.fillRow text ((text.length + 3 - 1) / 3) i
              ((text.length + 3 - 1) / 3) 0 st)
            (mkGrid 3 ((text.length + 3 - 1) / 3), 0)).1 i j)) := by
  unfold Cipher.applyTransposition
  exact foldl_range_foldl_range _ _ _

theorem Cipher.length_applyTransposition (text : Str) :
    (Cipher.applyTransposition text).length = 3 * ((text.length + 3 - 1) / 3) := by
  rw [Cipher.applyTransposition_eq, length_flatMap_range_map, Nat.mul_comm]

theorem Cipher.getElem?_applyTransposition (text : Str) (m : Nat) :
    (Cipher.applyTransposition text)[m]?
      = if m < 3 * ((text.length + 3 - 1) / 3) then
          some (if (m % 3) * ((text.length + 3 - 1) / 3) + m / 3 < text.length
            then text.getD ((m % 3) * ((text.length + 3 - 1) / 3) + m / 3) 0 else 32)
        else none := by
  rw [Cipher.applyTransposition_eq, getElem?_flatMap_range_map]
  by_cases hm : m < 3 * ((text.length + 3 - 1) / 3)
  · have hm2 : m < (text.length + 3 - 1) / 3 * 3 := by omega
    have hi : m % 3 < 3 := Nat.mod_lt _ (by omega)
    have hj : m / 3 < (text.length + 3 - 1) / 3 := by omega
    obtain ⟨-, -, h3⟩ := Cipher.fillRows_spec text 3 ((text.length + 3 - 1) / 3) 3 (le_refl _)
    rw [if_pos hm, if_pos hm2, h3 _ _ hi hj]
    simp only [hi, true_and]
  · have hm2 : ¬ m < (text.length + 3 - 1) / 3 * 3 := by omega
    rw [if_neg hm, if_neg hm2]

theorem Cipher.reverseTransposition_eq (cipherText : Str) (originalLength : Nat) :
    Cipher.reverseTransposition cipherText originalLength
      = ((List.range 3).flatMap (fun i => (List.range ((originalLength + 3 - 1) / 3)).map
          (fun j => gridGet ((List.range ((originalLength + 3 - 1) / 3)).foldl
            (fun st j => Cipher.fillCol cipherText 3 j 3 0 st)
            (mkGrid 3 ((originalLength + 3 - 1) / 3), 0)).1 i j))).take originalLength := by
  unfold Cipher.reverseTransposition
  exact congrArg (List.take originalLength) (foldl_range_foldl_range _ _ _)

theorem Cipher.length_reverseTransposition (cipherText : Str) (originalLength : Nat) :
    (Cipher.reverseTransposition cipherText originalLength).length = originalLength := by
  rw [Cipher.reverseTransposition_eq, List.length_take, length_flatMap_range_map]
  omega

theorem Cipher.getElem?_reverseTransposition (cipherText : Str) (originalLength m : Nat) :
    (Cipher.reverseTransposition cipherText originalLength)[m]?
      = if m < originalLength then
          some (if 3 * (m % ((originalLength + 3 - 1) / 3)) + m / ((originalLength + 3 - 1) / 3)
                < cipherText.length
            then cipherText.getD
              (3 * (m % ((originalLength + 3 - 1) / 3)) + m / ((originalLength + 3 - 1) / 3)) 0
            else 32)
        else none := by
  rw [Cipher.reverseTransposition_eq, List.getElem?_take, getElem?_flatMap_range_map]
  by_cases hm : m < originalLength
  · have hcpos : 0 < (originalLength + 3 - 1) / 3 := by omega
    have hm2 : m < 3 * ((originalLength + 3 - 1) / 3) := by omega
    have hj : m % ((originalLength + 3 - 1) / 3) < (originalLength + 3 - 1) / 3 :=
      Nat.mod_lt _ hcpos
    have hi : m / ((originalLength + 3 - 1) / 3) < 3 := by
      rw [Nat.div_lt_iff_lt_mul hcpos]; omega
    obtain ⟨-, -, h3⟩ :=
      Cipher.fillCols_spec cipherText ((originalLength + 3 - 1) / 3) _ (le_refl _)
    rw [if_pos hm, if_pos hm, if_pos hm2, h3 _ _ hi hj]
    simp only [hj, true_and]
  · rw [if_neg hm, if_neg hm]

theorem Cipher.reverseTransposition_applyTransposition (text : Str) :
    Cipher.reverseTransposition (Cipher.applyTransposition text) text.length = text := by
  apply List.ext_getElem?
  intro m
  rw [Cipher.getElem?_reverseTransposition, Cipher.length_applyTransposition]
  by_cases hm : m < text.length
  · have hcpos : 0 < (text.length + 3 - 1) / 3 := by omega
    have hj : m % ((text.length + 3 - 1) / 3) < (text.length + 3 - 1) / 3 :=
      Nat.mod_lt _ hcpos
    have hi : m / ((text.length + 3 - 1) / 3) < 3 := by
      rw [Nat.div_lt_iff_lt_mul hcpos]; omega
    have hlt : 3 * (m % ((text.length + 3 - 1) / 3)) + m / ((text.length + 3 - 1) / 3)
        < 3 * ((text.length + 3 - 1) / 3) := by omega
    have hmod : (3 * (m % ((text.length + 3 - 1) / 3)) + m / ((text.length + 3 - 1) / 3)) % 3
        = m / ((text.length + 3 - 1) / 3) := mod_three_cell _ _ hi
    have hdiv : (3 * (m % ((text.length + 3 - 1) / 3)) + m / ((text.length + 3 - 1) / 3)) / 3
        = m % ((text.length + 3 - 1) / 3) := div_three_cell _ _ hi
    have hrec : m / ((text.length + 3 - 1) / 3) * ((text.length + 3 - 1) / 3)
        + m % ((text.length + 3 - 1) / 3) = m := Nat.div_add_mod' m _
    rw [if_pos hm, if_pos hlt, List.getD_eq_getElem?_getD, Cipher.getElem?_applyTransposition,
      if_pos hlt, hmod, hdiv, hrec, if_pos hm, Option.getD_some, List.getD_eq_getElem _ _ hm,
      List.getElem?_eq_getElem hm]
  · rw [if_neg hm, List.getElem?_eq_none (by omega)]

theorem ceil_div_three (n : Nat) : ⌈(n : ℚ) / 3⌉₊ = (n + 3 - 1) / 3 := by
  apply le_antisymm
  · rw [Nat.ceil_le]
    have h : n ≤ 3 * ((n + 3 - 1) / 3) := by omega
    have h2 : (n : ℚ) ≤ 3 * (((n + 3 - 1) / 3 : ℕ) : ℚ) := by exact_mod_cast h
    linarith
  · have h := Nat.le_ceil ((n : ℚ) / 3)
    have h2 : (n : ℚ) ≤ 3 * (⌈(n : ℚ) / 3⌉₊ : ℚ) := by linarith
    have h3 : n ≤ 3 * ⌈(n : ℚ) / 3⌉₊ := by exact_mod_cast h2
    omega

/-! ## The stages composed -/

theorem Cipher.wellFormed_applySubstitution (p : Str) (hp : WellFormed p) :
    WellFormed (Cipher.applySubstitution p) := by
  rw [Cipher.applySubstitution_eq_flatMap]
  intro d hd
  obtain ⟨c, hc, hdc⟩ := List.mem_flatMap.mp hd
  have hc256 : c < 256 := hp c hc
  by_cases hl : islower c = true
  · rw [Cipher.substitutionOf_lower c hl] at hdc
    simp at hdc; omega
  · by_cases hu : isupper c = true
    · rw [Cipher.substitutionOf_upper c hu] at hdc
      simp at hdc; omega
    · rw [Cipher.substitutionOf_other c (by simpa using hl) (by simpa using hu)] at hdc
      simp at hdc; omega

theorem Cipher.not_inSymbolRange_decodeOne (c : Nat) :
    ¬ inSymbolRange (Cipher.decodeOne Cipher.reverseSubstitutionMap c) := by
  by_cases h : inSymbolRange c
  · rw [Cipher.decodeOne_of_mem c h]
    unfold inSymbolRange; omega
  · rw [Cipher.decodeOne_of_not_mem c h]; exact h

theorem Cipher.symbolFree_decodeScan_aux (n : Nat) :
    ∀ s : Str, s.length ≤ n → SymbolFree (Cipher.decodeScan Cipher.reverseSubstitutionMap s) := by
  induction n with
  | zero =>
    intro s hs
    have : s = [] := List.length_eq_zero.mp (by omega)
    subst this
    intro c hc; simp [Cipher.decodeScan] at hc
  | succ n ih =>
    intro s hs
    match s, hs with
    | [], _ => intro c hc; simp [Cipher.decodeScan] at hc
    | [c], _ =>
      intro d hd
      simp only [Cipher.decodeScan, List.mem_singleton] at hd
      rw [hd]; exact Cipher.not_inSymbolRange_decodeOne c
    | c :: x :: rest, hs =>
      simp only [List.length_cons] at hs
      intro d hd
      simp only [Cipher.decodeScan] at hd
      split_ifs at hd with hp
      · rcases List.mem_cons.mp hd with rfl | hd
        · have hb : 65 ≤ d ∧ d ≤ 90 := by simpa [isupper] using hp.1
          unfold inSymbolRange; omega
        · exact ih rest (by omega) d hd
      · rcases List.mem_cons.mp hd with rfl | hd
        · exact Cipher.not_inSymbolRange_decodeOne c
        · exact ih (x :: rest) (by simp only [List.length_cons]; omega) d hd

theorem Cipher.symbolFree_reverseSubstitution (s : Str) :
    SymbolFree (Cipher.reverseSubstitution Cipher.reverseSubstitutionMap s) := by
  rw [Cipher.reverseSubstitution_eq]
  exact Cipher.symbolFree_decodeScan_aux s.length s (le_refl _)

theorem Cipher.reverseSubstitution_applySubstitution (s : Str) (h : SymbolFree s) :
    Cipher.reverseSubstitution Cipher.reverseSubstitutionMap (Cipher.applySubstitution s) = s := by
  rw [Cipher.reverseSubstitution_eq, Cipher.applySubstitution_eq_flatMap,
    Cipher.decodeScan_flatMap_substitutionOf s h]

theorem Cipher.reverseShift_applyShift (t k : Str) (ht : WellFormed t) (hk : k ≠ []) :
    Cipher.applyShift t k = Except.ok (addShifts (Cipher.keyShifts k) 0 t) ∧
    Cipher.reverseShift (addShifts (Cipher.keyShifts k) 0 t) k = Except.ok t := by
  refine ⟨Cipher.applyShift_eq t k hk, ?_⟩
  rw [Cipher.reverseShift_eq _ k hk, subShifts_addShifts _ _ _ ht]

theorem Cipher.stages_cancel (p k : Str) (hp : WellFormed p) (hk : k ≠ []) :
    Cipher.applyShift (Cipher.applySubstitution p) k
      = Except.ok (addShifts (Cipher.keyShifts k) 0 (Cipher.applySubstitution p)) ∧
    Cipher.reverseShift (Cipher.reverseTransposition
        (Cipher.applyTransposition (addShifts (Cipher.keyShifts k) 0 (Cipher.applySubstitution p)))
        (addShifts (Cipher.keyShifts k) 0 (Cipher.applySubstitution p)).length) k
      = Except.ok (Cipher.applySubstitution p) := by
  have h := Cipher.reverseShift_applyShift (Cipher.applySubstitution p) k
    (Cipher.wellFormed_applySubstitution p hp) hk
  refine ⟨h.1, ?_⟩
  rw [Cipher.reverseTransposition_applyTransposition]
  exact h.2

/-! ## The functions of `cyber.cpp` against those of `cipher.cpp` -/

theorem Cyber.convertKeyToShifts_eq_keyShifts (key : Str) :
    Cyber.convertKeyToShifts key = Cipher.keyShifts key := rfl

theorem addShifts_congr (shifts : List Int) (a b : Nat) (t : Str)
    (h : a % shifts.length = b % shifts.length) : addShifts shifts a t = addShifts shifts b t := by
  induction t generalizing a b with
  | nil => rfl
  | cons c rest ih =>
    have h2 : (a + 1) % shifts.length = (b + 1) % shifts.length := by
      rw [Nat.add_mod a, Nat.add_mod b, h]
    simp only [addShifts, h, ih _ _ h2]

theorem subShifts_congr (shifts : List Int) (a b : Nat) (t : Str)
    (h : a % shifts.length = b % shifts.length) : subShifts shifts a t = subShifts shifts b t := by
  induction t generalizing a b with
  | nil => rfl
  | cons c rest ih =>
    have h2 : (a + 1) % shifts.length = (b + 1) % shifts.length := by
      rw [Nat.add_mod a, Nat.add_mod b, h]
    simp only [subShifts, h, ih _ _ h2]

theorem Cyber.applyShiftLoop_eq_addShifts (shifts : List Int) (text acc : Str) (keyIndex : Nat)
    (hk : keyIndex < shifts.length) :
    Cyber.applyShiftLoop shifts text acc keyIndex
      = Except.ok (acc ++ addShifts shifts keyIndex text) := by
  induction text generalizing acc keyIndex with
  | nil => simp [Cyber.applyShiftLoop, addShifts]
  | cons c rest ih =>
    have hne : shifts.length ≠ 0 := by omega
    have hlt : (keyIndex + 1) % shifts.length < shifts.length := Nat.mod_lt _ (by omega)
    have hmod : keyIndex % shifts.length = keyIndex := Nat.mod_eq_of_lt hk
    have hc : addShifts shifts ((keyIndex + 1) % shifts.length) rest
        = addShifts shifts (keyIndex + 1) rest :=
      addShifts_congr _ _ _ _ (Nat.mod_mod _ _)
    simp [Cyber.applyShiftLoop, addShifts, hk, hne, ih _ _ hlt, hmod, hc]

theorem Cyber.reverseShiftLoop_eq_subShifts (shifts : List Int) (text acc : Str) (keyIndex : Nat)
    (hk : keyIndex < shifts.length) :
    Cyber.reverseShiftLoop shifts text acc keyIndex
      = Except.ok (acc ++ subShifts shifts keyIndex text) := by
  induction text generalizing acc keyIndex with
  | nil => simp [Cyber.reverseShiftLoop, subShifts]
  | cons c rest ih =>
    have hne : shifts.length ≠ 0 := by omega
    have hlt : (keyIndex + 1) % shifts.length < shifts.length := Nat.mod_lt _ (by omega)
    have hmod : keyIndex % shifts.length = keyIndex := Nat.mod_eq_of_lt hk
    have hc : subShifts shifts ((keyIndex + 1) % shifts.length) rest
        = subShifts shifts (keyIndex + 1) rest :=
      subShifts_congr _ _ _ _ (Nat.mod_mod _ _)
    simp [Cyber.reverseShiftLoop, subShifts, hk, hne, ih _ _ hlt, hmod, hc]

theorem Cyber.applyShift_eq_cipher (text key : Str) (hk : key ≠ []) :
    Cyber.applyShift text key = Cipher.applyShift text key := by
  have hpos : 0 < (Cyber.convertKeyToShifts key).length := by
    rw [Cyber.convertKeyToShifts_eq_keyShifts, Cipher.length_keyShifts]
    exact List.length_pos.mpr hk
  rw [Cipher.applyShift_eq text key hk, Cyber.applyShift,
    Cyber.applyShiftLoop_eq_addShifts _ _ _ _ hpos, Cyber.convertKeyToShifts_eq_keyShifts]
  simp

theorem Cyber.reverseShift_eq_cipher (text key : Str) (hk : key ≠ []) :
    Cyber.reverseShift text key = Cipher.reverseShift text key := by
  have hpos : 0 < (Cyber.convertKeyToShifts key).length := by
    rw [Cyber.convertKeyToShifts_eq_keyShifts, Cipher.length_keyShifts]
    exact List.length_pos.mpr hk
  rw [Cipher.reverseShift_eq text key hk, Cyber.reverseShift,
    Cyber.reverseShiftLoop_eq_subShifts _ _ _ _ hpos, Cyber.convertKeyToShifts_eq_keyShifts]
  simp

theorem Cyber.fillRow_eq_cipher (text : Str) (cols i fuel j : Nat) (st : List (List Nat) × Nat) :
    Cyber.fillRow text cols i fuel j st = Cipher.fillRow text cols i fuel j st := by
  induction fuel generalizing j st with
  | zero => rfl
  | succ fuel ih =>
    obtain ⟨grid, index⟩ := st
    simp only [Cyber.fillRow, Cipher.fillRow, ih]

theorem Cyber.applyTransposition_eq_cipher (text : Str) :
    Cyber.applyTransposition text = Cipher.applyTransposition text := by
  have h : (fun (st : List (List Nat) × Nat) (i : Nat) =>
      Cyber.fillRow text ((text.length + 3 - 1) / 3) i ((text.length + 3 - 1) / 3) 0 st)
      = fun st i =>
        Cipher.fillRow text ((text.length + 3 - 1) / 3) i ((text.length + 3 - 1) / 3) 0 st := by
    funext st i
    exact Cyber.fillRow_eq_cipher _ _ _ _ _ _
  unfold Cyber.applyTransposition Cipher.applyTransposition
  simp only [h]

theorem foldl_eq_append_flatMap {α β : Type} (f : List β → α → List β) (g : α → List β)
    (h : ∀ acc x, f acc x = acc ++ g x) (l : List α) (acc : List β) :
    l.foldl f acc = acc ++ l.flatMap g := by
  have hf : f = fun acc x => acc ++ g x := by
    funext acc x
    exact h acc x
  rw [hf]
  exact foldl_append_flatMap g l acc

theorem Cyber.applySubstitution_cyber_eq_flatMap (plaintext : Str) :
    Cyber.applySubstitution plaintext = plaintext.flatMap Cipher.substitutionOf := by
  unfold Cyber.applySubstitution
  rw [foldl_eq_append_flatMap _ Cipher.substitutionOf]
  · simp
  · intro acc c
    by_cases hl : islower c = true
    · have hb : 97 ≤ c ∧ c ≤ 122 := by simpa [islower] using hl
      obtain ⟨h1, h2⟩ := hb
      clear hl
      interval_cases c <;> rfl
    · by_cases hu : isupper c = true
      · have hb : 65 ≤ c ∧ c ≤ 90 := by simpa [isupper] using hu
        obtain ⟨h1, h2⟩ := hb
        clear hl hu
        interval_cases c <;> rfl
      · rw [if_neg hl, if_neg hu,
          Cipher.substitutionOf_other c (by simpa using hl) (by simpa using hu)]

theorem Cyber.applySubstitution_eq_cipher (plaintext : Str) :
    Cyber.applySubstitution plaintext = Cipher.applySubstitution plaintext := by
  rw [Cyber.applySubstitution_cyber_eq_flatMap, Cipher.applySubstitution_eq_flatMap]

/-! ## The specification's definitions against the code -/

theorem Cipher.substitutionOf_eq_spec (c : Nat) :
    Cipher.substitutionOf c = Spec.encodeChar c := by
  unfold Spec.encodeChar Spec.symbolOf
  by_cases hl : islower c = true
  · have hb : 97 ≤ c ∧ c ≤ 122 := by simpa [islower] using hl
    rw [Cipher.substitutionOf_lower c hl, if_pos hb]
    congr 1; omega
  · by_cases hu : isupper c = true
    · have hb : 65 ≤ c ∧ c ≤ 90 := by simpa [isupper] using hu
      have hnl : ¬ (97 ≤ c ∧ c ≤ 122) := by omega
      have ht : tolower c = c + 32 := by simp [tolower, hu]
      rw [Cipher.substitutionOf_upper c hu, if_neg hnl, if_pos hb, ht]
      congr 2; omega
    · have hnl : ¬ (97 ≤ c ∧ c ≤ 122) := by simpa [islower] using hl
      have hnu : ¬ (65 ≤ c ∧ c ≤ 90) := by simpa [isupper] using hu
      rw [Cipher.substitutionOf_other c (by simpa using hl) (by simpa using hu),
        if_neg hnl, if_neg hnu]

theorem Cipher.applySubstitution_eq_spec (s : Str) :
    Cipher.applySubstitution s = s.flatMap Spec.encodeChar := by
  rw [Cipher.applySubstitution_eq_flatMap]
  congr 1
  funext c
  exact Cipher.substitutionOf_eq_spec c

theorem Cipher.decodeOne_eq_spec (c : Nat) :
    Cipher.decodeOne Cipher.reverseSubstitutionMap c
      = if Spec.isTableSymbol c then Spec.letterOf c else c := by
  by_cases h : inSymbolRange c
  · have hs : Spec.isTableSymbol c = true := by
      simpa [Spec.isTableSymbol, inSymbolRange] using h
    rw [Cipher.decodeOne_of_mem c h, if_pos hs]
    unfold Spec.letterOf
    unfold inSymbolRange at h
    omega
  · have hs : ¬ Spec.isTableSymbol c = true := by
      simpa [Spec.isTableSymbol, inSymbolRange] using h
    rw [Cipher.decodeOne_of_not_mem c h, if_neg hs]

theorem Cipher.pair_test_iff_spec (c n : Nat) :
    (isupper c = true ∧ mapCount Cipher.reverseSubstitutionMap [n] = true)
      ↔ ((65 ≤ c ∧ c ≤ 90) ∧ Spec.isTableSymbol n = true) := by
  rw [Cipher.mapCount_reverseSubstitutionMap]
  simp [isupper, Spec.isTableSymbol, inSymbolRange]

theorem Cipher.decodeScan_eq_spec_aux (k : Nat) :
    ∀ s : Str, s.length ≤ k → Cipher.decodeScan Cipher.reverseSubstitutionMap s = Spec.decode s := by
  induction k with
  | zero =>
    intro s hs
    have : s = [] := List.length_eq_zero.mp (by omega)
    subst this
    rfl
  | succ k ih =>
    intro s hs
    match s, hs with
    | [], _ => rfl
    | [c], _ => simp only [Cipher.decodeScan, Spec.decode, Cipher.decodeOne_eq_spec]
    | c :: x :: rest, hs =>
      simp only [List.length_cons] at hs
      simp only [Cipher.decodeScan, Spec.decode, Cipher.decodeOne_eq_spec,
        Cipher.pair_test_iff_spec, ih rest (by omega),
        ih (x :: rest) (by simp only [List.length_cons]; omega)]

theorem Cipher.reverseSubstitution_eq_spec (s : Str) :
    Cipher.reverseSubstitution Cipher.reverseSubstitutionMap s = Spec.decode s := by
  rw [Cipher.reverseSubstitution_eq]
  exact Cipher.decodeScan_eq_spec_aux s.length s (le_refl _)

/-! ## The shift schedule -/

theorem getElem?_addShifts (shifts : List Int) (keyIndex : Nat) (t : Str) (i : Nat)
    (hi : i < t.length) :
    (addShifts shifts keyIndex t)[i]?
      = some (toChar ((t.getD i 0 : Int) + shifts.getD ((keyIndex + i) % shifts.length) 0)) := by
  induction t generalizing keyIndex i with
  | nil => simp at hi
  | cons c rest ih =>
    cases i with
    | zero => simp [addShifts]
    | succ i =>
      have hi2 : i < rest.length := by simpa using hi
      have he : keyIndex + 1 + i = keyIndex + (i + 1) := by omega
      simp only [addShifts, List.getElem?_cons_succ, ih _ _ hi2, List.getD_cons_succ, he]

theorem Cipher.getD_keyShifts (key : Str) (j : Nat) (hj : j < key.length) :
    (Cipher.keyShifts key).getD j 0 = (tolower (key.getD j 0) : Int) - 97 := by
  rw [Cipher.keyShifts_eq_map]
  simp [List.getD_eq_getElem?_getD, List.getElem?_map, List.getElem?_eq_getElem hj]

theorem tolower_of_isalpha (c : Nat) (h : isalpha c = true) :
    97 ≤ tolower c ∧ tolower c ≤ 122 := by
  unfold isalpha at h
  by_cases hu : isupper c = true
  · have hb : 65 ≤ c ∧ c ≤ 90 := by simpa [isupper] using hu
    simp only [tolower, hu, if_true]
    omega
  · have hl : islower c = true := by simpa [hu] using h
    have hb : 97 ≤ c ∧ c ≤ 122 := by simpa [islower] using hl
    simp only [tolower, hu]
    simpa using hb

theorem tolower_tolower (c : Nat) : tolower (tolower c) = tolower c := by
  by_cases hu : isupper c = true
  · have hb : 65 ≤ c ∧ c ≤ 90 := by simpa [isupper] using hu
    have h2 : isupper (c + 32) = false := by simp [isupper]; omega
    simp [tolower, hu, h2]
  · simp [tolower, hu]

theorem tolower_toupper (c : Nat) : tolower (toupper c) = tolower c := by
  by_cases hl : islower c = true
  · have hb : 97 ≤ c ∧ c ≤ 122 := by simpa [islower] using hl
    have h1 : isupper (c - 32) = true := by simp [isupper]; omega
    have h2 : isupper c = false := by simp [isupper]; omega
    simp [tolower, toupper, hl, h1, h2]
    omega
  · simp [toupper, hl]

theorem Cipher.keyShifts_congr (k k2 : Str) (h : k2.map tolower = k.map tolower) :
    Cipher.keyShifts k2 = Cipher.keyShifts k := by
  have h1 : ∀ key : Str, Cipher.keyShifts key
      = (key.map tolower).map (fun (c : Nat) => (c : Int) - 97) := by
    intro key
    rw [Cipher.keyShifts_eq_map, List.map_map]
    rfl
  rw [h1, h1, h]

theorem Cipher.applyShift_congr (t k k2 : Str) (h : k2.map tolower = k.map tolower) :
    Cipher.applyShift t k2 = Cipher.applyShift t k := by
  unfold Cipher.applyShift
  rw [Cipher.keyShifts_congr k k2 h]

/-! ## Lengths -/

theorem Cipher.length_flatMap_substitutionOf (p : Str) :
    (p.flatMap Cipher.substitutionOf).length = p.length + p.countP isupper := by
  induction p with
  | nil => rfl
  | cons c rest ih =>
    rw [List.flatMap_cons, List.length_append, ih, List.countP_cons, List.length_cons]
    by_cases hu : isupper c = true
    · rw [Cipher.substitutionOf_upper c hu, if_pos hu]
      simp only [List.length_cons, List.length_nil]
      omega
    · have hlen : (Cipher.substitutionOf c).length = 1 := by
        by_cases hl : islower c = true
        · rw [Cipher.substitutionOf_lower c hl]; rfl
        · rw [Cipher.substitutionOf_other c (by simpa using hl) (by simpa using hu)]; rfl
      rw [hlen, if_neg hu]
      omega

theorem Cipher.length_applySubstitution (p : Str) :
    (Cipher.applySubstitution p).length = p.length + p.countP isupper := by
  rw [Cipher.applySubstitution_eq_flatMap, Cipher.length_flatMap_substitutionOf]

/-! ## The claims -/

/-- C1, refuted as stated: the plaintext `"!"` with key `"a"` passes the
forward chain unchanged and the decryption chain returns `"a"`, not `"!"`. -/
theorem pipeline_round_trip_fails_on_symbol :
    Cipher.applyShift (Cipher.applySubstitution [33]) [97] = Except.ok [33] ∧
    Cipher.reverseShift
      (Cipher.reverseTransposition (Cipher.applyTransposition [33]) ([33] : Str).length) [97]
      = Except.ok [33] ∧
    Cipher.reverseSubstitution Cipher.reverseSubstitutionMap [33] = [97] ∧
    ([97] : Str) ≠ [33] :=
  ⟨rfl, rfl, by decide, by decide⟩

/-- C1, amended: for every plaintext `p` of 8-bit code units and every
non-empty key `k` (alphabetic or not), the forward chain returns a shifted
text `s`, the decryption chain run on `applyTransposition s` with length
`len s` returns a text `r` to `reverseSubstitution`, and the final result
equals `p` exactly when `p` contains none of the 26 symbols. -/
theorem pipeline_round_trip_iff_symbolFree (p k : Str) (hp : WellFormed p) (hk : k ≠ []) :
    ∃ s r, Cipher.applyShift (Cipher.applySubstitution p) k = Except.ok s ∧
      Cipher.reverseShift
        (Cipher.reverseTransposition (Cipher.applyTransposition s) s.length) k = Except.ok r ∧
      (Cipher.reverseSubstitution Cipher.reverseSubstitutionMap r = p ↔ SymbolFree p) := by
  obtain ⟨h1, h2⟩ := Cipher.stages_cancel p k hp hk
  refine ⟨_, _, h1, h2, ?_, Cipher.reverseSubstitution_applySubstitution p⟩
  intro h
  rw [← h]
  exact Cipher.symbolFree_reverseSubstitution _

/-- Witness of C1 (amended) at the plaintext `"Hi you"` and the key `"Key"`. -/
theorem pipeline_round_trip_iff_symbolFree_witness :
    WellFormed [72, 105, 32, 121, 111, 117] ∧ ([75, 101, 121] : Str) ≠ [] ∧
    ∃ s r, Cipher.applyShift (Cipher.applySubstitution [72, 105, 32, 121, 111, 117])
        [75, 101, 121] = Except.ok s ∧
      Cipher.reverseShift
        (Cipher.reverseTransposition (Cipher.applyTransposition s) s.length) [75, 101, 121]
        = Except.ok r ∧
      (Cipher.reverseSubstitution Cipher.reverseSubstitutionMap r
          = [72, 105, 32, 121, 111, 117]
        ↔ SymbolFree [72, 105, 32, 121, 111, 117]) :=
  ⟨by decide, by decide,
    pipeline_round_trip_iff_symbolFree [72, 105, 32, 121, 111, 117] [75, 101, 121]
      (by decide) (by decide)⟩

/-- C2: for every string `s` with no character in the symbol range `'!'` to
`':'` (letters and other non-letters are free), decoding the substitution of
`s` with the reverse map built by `createReverseMap` gives back `s`. -/
theorem substitution_round_trip (s : Str) (h : SymbolFree s) :
    Cipher.reverseSubstitution Cipher.reverseSubstitutionMap (Cipher.applySubstitution s) = s :=
  Cipher.reverseSubstitution_applySubstitution s h

/-- Witness of C2 at the string `"Az b~"` followed by the code unit 200. -/
theorem substitution_round_trip_witness :
    SymbolFree [65, 122, 32, 98, 126, 200] ∧
    Cipher.reverseSubstitution Cipher.reverseSubstitutionMap
      (Cipher.applySubstitution [65, 122, 32, 98, 126, 200]) = [65, 122, 32, 98, 126, 200] :=
  ⟨by decide, substitution_round_trip [65, 122, 32, 98, 126, 200] (by decide)⟩

/-- C3: for every text `t` of 8-bit code units and every non-empty key `k`,
`applyShift t k` returns a text `s` and `reverseShift s k` returns `t`: the
addition and the subtraction of the same shift cancel modulo 256. -/
theorem shift_round_trip (t k : Str) (ht : WellFormed t) (hk : k ≠ []) :
    ∃ s, Cipher.applyShift t k = Except.ok s ∧ Cipher.reverseShift s k = Except.ok t :=
  ⟨_, Cipher.reverseShift_applyShift t k ht hk⟩

/-- Witness of C3 at a text with the code units 0, 255 and 250 and the key
`"zQ "`, whose last character is not a letter. -/
theorem shift_round_trip_witness :
    WellFormed [0, 255, 250, 65, 10] ∧ ([122, 81, 32] : Str) ≠ [] ∧
    ∃ s, Cipher.applyShift [0, 255, 250, 65, 10] [122, 81, 32] = Except.ok s ∧
      Cipher.reverseShift s [122, 81, 32] = Except.ok [0, 255, 250, 65, 10] :=
  ⟨by decide, by decide, shift_round_trip [0, 255, 250, 65, 10] [122, 81, 32]
    (by decide) (by decide)⟩

/-- C4: for every text `t`, of any length and with any characters, spaces
included, `reverseTransposition (applyTransposition t) (len t) = t`. -/
theorem transposition_round_trip (t : Str) :
    Cipher.reverseTransposition (Cipher.applyTransposition t) t.length = t :=
  Cipher.reverseTransposition_applyTransposition t

/-- C5: for every text `t`, the length of `applyTransposition t` is
`3 * ceil (len t / 3)`, the value the code computes as
`3 * ((len t + 3 - 1) / 3)`; it is at least `len t` and at most `len t + 2`. -/
theorem transposition_size (t : Str) :
    (Cipher.applyTransposition t).length = 3 * ⌈(t.length : ℚ) / 3⌉₊ ∧
    (Cipher.applyTransposition t).length = 3 * ((t.length + 3 - 1) / 3) ∧
    t.length ≤ (Cipher.applyTransposition t).length ∧
    (Cipher.applyTransposition t).length ≤ t.length + 2 := by
  rw [ceil_div_three, Cipher.length_applyTransposition]
  omega

/-- C6: for every text `t` and every non-empty key `k`, `applyShift t k`
returns a text of the length of `t`. -/
theorem shift_length_preserved (t k : Str) (hk : k ≠ []) :
    ∃ s, Cipher.applyShift t k = Except.ok s ∧ s.length = t.length :=
  ⟨_, Cipher.applyShift_eq t k hk, length_addShifts _ _ _⟩

/-- Witness of C6 at the text `"hello"` and the key `"ab"`. -/
theorem shift_length_preserved_witness :
    ([97, 98] : Str) ≠ [] ∧
    ∃ s, Cipher.applyShift [104, 101, 108, 108, 111] [97, 98] = Except.ok s ∧
      s.length = ([104, 101, 108, 108, 111] : Str).length :=
  ⟨by decide, shift_length_preserved [104, 101, 108, 108, 111] [97, 98] (by decide)⟩

/-- C7, the code at the failing input: neither file checks the key. With the
empty key the shifts are empty; for the text `"a"` the first round of the text
loop of `applyShift` then reaches `keyIndex % shifts.size()` with size 0 in
`cipher.cpp` and `shifts[keyIndex]` on an empty vector in `cyber.cpp`, which
C++ leaves undefined (a `Fault` of the model), where the claim asks for an
`InvalidKey` error; for the empty text both files return the empty string. -/
theorem applyShift_empty_key_unchecked :
    Cipher.keyShifts [] = [] ∧ Cyber.convertKeyToShifts [] = [] ∧
    Cipher.applyShift [97] [] = Except.error Fault.divisionByZero ∧
    Cyber.applyShift [97] [] = Except.error Fault.indexOutOfRange ∧
    Cipher.applyShift [] [] = Except.ok [] ∧
    Cyber.applyShift [] [] = Except.ok [] :=
  ⟨rfl, rfl, rfl, rfl, rfl, rfl⟩

/-- C8, refuted as stated: for `originalLength = 3` the grid has 3 cells, the
empty cipher text is shorter, and `reverseTransposition` returns three spaces. -/
theorem reverseTransposition_short_cipher_returns :
    ([] : Str).length < 3 * ((3 + 3 - 1) / 3) ∧
    Cipher.reverseTransposition [] 3 = [32, 32, 32] :=
  ⟨by decide, by decide⟩

/-- C8, amended: `reverseTransposition c n` returns a string for every cipher
text `c` and every `n`, also when `len c` is below the grid size. The string
has length `n`; with `C = (n + 3 - 1) / 3`, its character `m` is
`c[3 * (m mod C) + m div C]` where that position exists in `c` and a space
where it does not. There is no `InvalidCipherLength` error. -/
theorem reverseTransposition_total_layout (c : Str) (n : Nat) :
    (Cipher.reverseTransposition c n).length = n ∧
    ∀ m, m < n →
      (Cipher.reverseTransposition c n)[m]?
        = some (if 3 * (m % ((n + 3 - 1) / 3)) + m / ((n + 3 - 1) / 3) < c.length
            then c.getD (3 * (m % ((n + 3 - 1) / 3)) + m / ((n + 3 - 1) / 3)) 0
            else 32) := by
  refine ⟨Cipher.length_reverseTransposition c n, ?_⟩
  intro m hm
  rw [Cipher.getElem?_reverseTransposition, if_pos hm]

/-- C9: `substitutionMap` sends the lowercase letter of alphabet index `i` to
the one-character string of code `0x21 + i`; its keys are the 26 lowercase
letters; no two letters share a symbol; after `createReverseMap` the reverse
map has exactly the 26 one-character keys of codes `0x21` to `0x3A`, and
looking up the symbol of a letter in it gives the letter back. -/
theorem symbol_table_bijection :
    (∀ i, i < 26 → Cipher.substitutionMap.lookup (97 + i) = some [33 + i]) ∧
    Cipher.substitutionMap.map Prod.fst = (List.range 26).map (fun i => 97 + i) ∧
    (∀ i, i < 26 → ∀ j, j < 26 →
      Cipher.substitutionMap.lookup (97 + i) = Cipher.substitutionMap.lookup (97 + j) → i = j) ∧
    Cipher.reverseSubstitutionMap.map Prod.fst = (List.range 26).map (fun i => [33 + i]) ∧
    (∀ i, i < 26 → Cipher.reverseSubstitutionMap.lookup
        (mapAt Cipher.substitutionMap (97 + i) []) = some (97 + i)) := by
  decide

/-- C10: the scenario `"abc"` with key `"key"`. The substitution gives
`"!\"#"`; the shifts of the key are 10, 4, 24 in both files; the shifted text
has the code units 33 + 10, 34 + 4, 35 + 24; the transposition returns these
three characters in the same order; and the decryption chain with length 3
returns `"abc"`. -/
theorem scenario_abc_key :
    Cipher.applySubstitution [97, 98, 99] = [33, 34, 35] ∧
    Cipher.keyShifts [107, 101, 121] = [10, 4, 24] ∧
    Cyber.convertKeyToShifts [107, 101, 121] = [10, 4, 24] ∧
    Cipher.applyShift [33, 34, 35] [107, 101, 121] = Except.ok [33 + 10, 34 + 4, 35 + 24] ∧
    Cipher.applyTransposition [43, 38, 59] = [43, 38, 59] ∧
    Cipher.reverseTransposition [43, 38, 59] 3 = [43, 38, 59] ∧
    Cipher.reverseShift [43, 38, 59] [107, 101, 121] = Except.ok [33, 34, 35] ∧
    Cipher.reverseSubstitution Cipher.reverseSubstitutionMap [33, 34, 35] = [97, 98, 99] :=
  ⟨by decide, by decide, by decide, rfl, by decide, by decide, rfl, by decide⟩

/-- C11: the scenario `"Az"` with key `"a"`. The substitution gives `"A!:"`, of
length 3; the shift with key `"a"` leaves it unchanged; the transposition and
its inverse with length 3 give `"A!:"` back; the reverse shift leaves it
unchanged; and `reverseSubstitution` reads the pair `A`, `!` as `A` and
returns `"Az"`. -/
theorem scenario_Az_a :
    Cipher.applySubstitution [65, 122] = [65, 33, 58] ∧
    ([65, 33, 58] : Str).length = 3 ∧
    Cipher.applyShift [65, 33, 58] [97] = Except.ok [65, 33, 58] ∧
    Cipher.reverseTransposition (Cipher.applyTransposition [65, 33, 58]) 3 = [65, 33, 58] ∧
    Cipher.reverseShift [65, 33, 58] [97] = Except.ok [65, 33, 58] ∧
    Cipher.reverseSubstitution Cipher.reverseSubstitutionMap [65, 33, 58] = [65, 122] :=
  ⟨by decide, by decide, rfl, by decide, rfl, by decide⟩

/-- C12: for every string `s`, `applySubstitution s` is the in-order
concatenation of the per-character rule of the specification: the symbol of a
lowercase letter, an uppercase letter followed by the symbol of its lowercase
form, any other character itself. The symbol of the rule is the entry of
`substitutionMap`. -/
theorem substitution_encode_per_character :
    (∀ s : Str, Cipher.applySubstitution s = s.flatMap Spec.encodeChar) ∧
    (∀ c, 97 ≤ c → c ≤ 122 →
      Cipher.substitutionMap.lookup c = some [Spec.symbolOf c]) := by
  refine ⟨Cipher.applySubstitution_eq_spec, ?_⟩
  intro c h1 h2
  rw [Cipher.lookup_substitutionMap c h1 h2]
  unfold Spec.symbolOf
  congr 2; omega

/-- C13: on every input string, `reverseSubstitution` with the reverse map
built by `createReverseMap` returns the result of the left-to-right scan of
the specification; it returns on every input. The pair rule accepts any table
symbol after an uppercase letter: `"A#"` decodes to `"A"`. -/
theorem substitution_decode_scan :
    (∀ s : Str, Cipher.reverseSubstitution Cipher.reverseSubstitutionMap s = Spec.decode s) ∧
    Cipher.reverseSubstitution Cipher.reverseSubstitutionMap [65, 35] = [65] :=
  ⟨Cipher.reverseSubstitution_eq_spec, by decide⟩

/-- C14: for every text `t` and every non-empty alphabetic key `k`,
`applyShift t k` returns a text whose code unit `i` is
`(t[i] + sh) mod 256`, where `sh = tolower (k[i mod len k]) - 'a'` is the
entry `i mod len k` of the shifts of both files and lies in 0..25; the
lower-cased and the upper-cased spelling of the key give the same text. -/
theorem shift_schedule (t k : Str) (hk : k ≠ []) (ha : ∀ c ∈ k, isalpha c = true) :
    ∃ s, Cipher.applyShift t k = Except.ok s ∧
      (∀ i, i < t.length → ∃ sh : Nat, sh ≤ 25 ∧
        (tolower (k.getD (i % k.length) 0) : Int) - 97 = sh ∧
        (Cipher.keyShifts k).getD (i % k.length) 0 = sh ∧
        (Cyber.convertKeyToShifts k).getD (i % k.length) 0 = sh ∧
        s[i]? = some ((t.getD i 0 + sh) % 256)) ∧
      Cipher.applyShift t (k.map tolower) = Except.ok s ∧
      Cipher.applyShift t (k.map toupper) = Except.ok s := by
  have hlen : 0 < k.length := List.length_pos.mpr hk
  refine ⟨_, Cipher.applyShift_eq t k hk, ?_, ?_, ?_⟩
  · intro i hi
    have hj : i % k.length < k.length := Nat.mod_lt _ hlen
    have hmem : k.getD (i % k.length) 0 ∈ k := by
      rw [List.getD_eq_getElem _ _ hj]
      exact List.getElem_mem hj
    obtain ⟨h1, h2⟩ := tolower_of_isalpha _ (ha _ hmem)
    have hsh := Cipher.getD_keyShifts k (i % k.length) hj
    refine ⟨tolower (k.getD (i % k.length) 0) - 97, by omega, by omega, ?_, ?_, ?_⟩
    · rw [hsh]; omega
    · rw [Cyber.convertKeyToShifts_eq_keyShifts, hsh]; omega
    · rw [getElem?_addShifts _ _ _ _ hi, Cipher.length_keyShifts, Nat.zero_add, hsh]
      congr 1
      unfold toChar
      omega
  · rw [Cipher.applyShift_congr t k (k.map tolower)
      (by rw [List.map_map]; exact List.map_congr_left (fun c _ => tolower_tolower c))]
    exact Cipher.applyShift_eq t k hk
  · rw [Cipher.applyShift_congr t k (k.map toupper)
      (by rw [List.map_map]; exact List.map_congr_left (fun c _ => tolower_toupper c))]
    exact Cipher.applyShift_eq t k hk

/-- Witness of C14 at the text `"Hi!"` and the key `"Ab"`. -/
theorem shift_schedule_witness :
    ([65, 98] : Str) ≠ [] ∧ (∀ c ∈ ([65, 98] : Str), isalpha c = true) ∧
    ∃ s, Cipher.applyShift [72, 105, 33] [65, 98] = Except.ok s ∧
      (∀ i, i < ([72, 105, 33] : Str).length → ∃ sh : Nat, sh ≤ 25 ∧
        (tolower (([65, 98] : Str).getD (i % ([65, 98] : Str).length) 0) : Int) - 97 = sh ∧
        (Cipher.keyShifts [65, 98]).getD (i % ([65, 98] : Str).length) 0 = sh ∧
        (Cyber.convertKeyToShifts [65, 98]).getD (i % ([65, 98] : Str).length) 0 = sh ∧
        s[i]? = some ((([72, 105, 33] : Str).getD i 0 + sh) % 256)) ∧
      Cipher.applyShift [72, 105, 33] (([65, 98] : Str).map tolower) = Except.ok s ∧
      Cipher.applyShift [72, 105, 33] (([65, 98] : Str).map toupper) = Except.ok s :=
  ⟨by decide, by decide, shift_schedule [72, 105, 33] [65, 98] (by decide) (by decide)⟩

/-- C15: for every text `t` of length `n`, with `C = (n + 3 - 1) / 3`, which is
`ceil (n / 3)`, the character of `applyTransposition t` at position
`3 * j + i`, for `i < 3` and `j < C`, is `t[i * C + j]` when `i * C + j < n`
and a space otherwise. -/
theorem transposition_encode_layout (t : Str) (i j : Nat) (hi : i < 3)
    (hj : j < (t.length + 3 - 1) / 3) :
    (t.length + 3 - 1) / 3 = ⌈(t.length : ℚ) / 3⌉₊ ∧
    (Cipher.applyTransposition t)[3 * j + i]?
      = some (if i * ((t.length + 3 - 1) / 3) + j < t.length
          then t.getD (i * ((t.length + 3 - 1) / 3) + j) 0 else 32) := by
  refine ⟨(ceil_div_three t.length).symm, ?_⟩
  have hm : 3 * j + i < 3 * ((t.length + 3 - 1) / 3) := by omega
  rw [Cipher.getElem?_applyTransposition, if_pos hm, mod_three_cell j i hi,
    div_three_cell j i hi]

/-- Witness of C15 at a text of 7 characters, row 2 and column 2: the cell is
past the end of the text and holds a space. -/
theorem transposition_encode_layout_witness :
    2 < 3 ∧ 2 < (([1, 2, 3, 4, 5, 6, 7] : Str).length + 3 - 1) / 3 ∧
    ((([1, 2, 3, 4, 5, 6, 7] : Str).length + 3 - 1) / 3
        = ⌈((([1, 2, 3, 4, 5, 6, 7] : Str).length : ℕ) : ℚ) / 3⌉₊ ∧
      (Cipher.applyTransposition [1, 2, 3, 4, 5, 6, 7])[3 * 2 + 2]?
        = some (if 2 * ((([1, 2, 3, 4, 5, 6, 7] : Str).length + 3 - 1) / 3) + 2
              < ([1, 2, 3, 4, 5, 6, 7] : Str).length
            then ([1, 2, 3, 4, 5, 6, 7] : Str).getD
              (2 * ((([1, 2, 3, 4, 5, 6, 7] : Str).length + 3 - 1) / 3) + 2) 0
            else 32)) :=
  ⟨by decide, by decide,
    transposition_encode_layout [1, 2, 3, 4, 5, 6, 7] 2 2 (by decide) (by decide)⟩

/-- C16: for every `originalLength` `n`, with `C = (n + 3 - 1) / 3`, and every
cipher text `c` of at least `3 * C` characters, `reverseTransposition c n` has
length exactly `n` and its character `m`, for `m < n`, is
`c[3 * (m mod C) + m div C]`, a position inside `c`: the text is cut to `n`
characters and no space is stripped. -/
theorem transposition_decode_layout (c : Str) (n : Nat)
    (h : 3 * ((n + 3 - 1) / 3) ≤ c.length) :
    (n + 3 - 1) / 3 = ⌈(n : ℚ) / 3⌉₊ ∧
    (Cipher.reverseTransposition c n).length = n ∧
    ∀ m, m < n →
      3 * (m % ((n + 3 - 1) / 3)) + m / ((n + 3 - 1) / 3) < c.length ∧
      (Cipher.reverseTransposition c n)[m]?
        = some (c.getD (3 * (m % ((n + 3 - 1) / 3)) + m / ((n + 3 - 1) / 3)) 0) := by
  refine ⟨(ceil_div_three n).symm, Cipher.length_reverseTransposition c n, ?_⟩
  intro m hm
  have hcpos : 0 < (n + 3 - 1) / 3 := by omega
  have hj : m % ((n + 3 - 1) / 3) < (n + 3 - 1) / 3 := Nat.mod_lt _ hcpos
  have hi : m / ((n + 3 - 1) / 3) < 3 := by
    rw [Nat.div_lt_iff_lt_mul hcpos]; omega
  have hlt : 3 * (m % ((n + 3 - 1) / 3)) + m / ((n + 3 - 1) / 3) < c.length := by omega
  refine ⟨hlt, ?_⟩
  rw [Cipher.getElem?_reverseTransposition, if_pos hm, if_pos hlt]

/-- Witness of C16 at a cipher text of 9 characters, two of them spaces, and
`originalLength = 7`. -/
theorem transposition_decode_layout_witness :
    3 * ((7 + 3 - 1) / 3) ≤ ([1, 4, 32, 2, 5, 32, 3, 6, 7] : Str).length ∧
    ((7 + 3 - 1) / 3 = ⌈((7 : ℕ) : ℚ) / 3⌉₊ ∧
      (Cipher.reverseTransposition [1, 4, 32, 2, 5, 32, 3, 6, 7] 7).length = 7 ∧
      ∀ m, m < 7 →
        3 * (m % ((7 + 3 - 1) / 3)) + m / ((7 + 3 - 1) / 3)
          < ([1, 4, 32, 2, 5, 32, 3, 6, 7] : Str).length ∧
        (Cipher.reverseTransposition [1, 4, 32, 2, 5, 32, 3, 6, 7] 7)[m]?
          = some (([1, 4, 32, 2, 5, 32, 3, 6, 7] : Str).getD
              (3 * (m % ((7 + 3 - 1) / 3)) + m / ((7 + 3 - 1) / 3)) 0)) :=
  ⟨by decide, transposition_decode_layout [1, 4, 32, 2, 5, 32, 3, 6, 7] 7 (by decide)⟩

/-- C17: for every plaintext `p` and every non-empty key `k`, the shifted text
whose length `main` hands to `reverseTransposition` has the length of
`applySubstitution p`, which is `len p` plus the number of uppercase ASCII
letters of `p`, and so at least `len p`. -/
theorem shifted_length (p k : Str) (hk : k ≠ []) :
    ∃ s, Cipher.applyShift (Cipher.applySubstitution p) k = Except.ok s ∧
      s.length = (Cipher.applySubstitution p).length ∧
      (Cipher.applySubstitution p).length = p.length + p.countP isupper ∧
      p.length ≤ s.length := by
  refine ⟨_, Cipher.applyShift_eq _ k hk, length_addShifts _ _ _,
    Cipher.length_applySubstitution p, ?_⟩
  rw [length_addShifts, Cipher.length_applySubstitution]
  omega

/-- Witness of C17 at the plaintext `"Hi You"` and the key `"k"`. -/
theorem shifted_length_witness :
    ([107] : Str) ≠ [] ∧
    ∃ s, Cipher.applyShift (Cipher.applySubstitution [72, 105, 32, 89, 111, 117]) [107]
        = Except.ok s ∧
      s.length = (Cipher.applySubstitution [72, 105, 32, 89, 111, 117]).length ∧
      (Cipher.applySubstitution [72, 105, 32, 89, 111, 117]).length
        = ([72, 105, 32, 89, 111, 117] : Str).length
          + ([72, 105, 32, 89, 111, 117] : Str).countP isupper ∧
      ([72, 105, 32, 89, 111, 117] : Str).length ≤ s.length :=
  ⟨by decide, shifted_length [72, 105, 32, 89, 111, 117] [107] (by decide)⟩

/-- C18: `applyTransposition ""` is the empty string, its grid having
`C = 0` columns, and `reverseTransposition c 0` is the empty string for every
cipher text `c`, the empty one included. -/
theorem transposition_empty :
    (([] : Str).length + 3 - 1) / 3 = 0 ∧
    mkGrid 3 0 = [[], [], []] ∧
    Cipher.applyTransposition [] = [] ∧
    (∀ c : Str, Cipher.reverseTransposition c 0 = []) ∧
    Cipher.reverseTransposition [] 0 = [] := by
  refine ⟨by decide, by decide, by decide, ?_, by decide⟩
  intro c
  exact List.length_eq_zero.mp (Cipher.length_reverseTransposition c 0)

/-- C19: for every plaintext `p` of 8-bit code units with no character in the
symbol range `'!'` to `':'` and every non-empty key `k`, the encryption chain
of `main` returns a shifted text `s`, and its decryption chain
(`reverseTransposition` with length `len s`, `reverseShift` with `k`,
`reverseSubstitution`) run on `applyTransposition s` returns exactly `p`. -/
theorem pipeline_round_trip_of_symbolFree (p k : Str) (hp : WellFormed p)
    (hs : SymbolFree p) (hk : k ≠ []) :
    ∃ s r, Cipher.applyShift (Cipher.applySubstitution p) k = Except.ok s ∧
      Cipher.reverseShift
        (Cipher.reverseTransposition (Cipher.applyTransposition s) s.length) k = Except.ok r ∧
      Cipher.reverseSubstitution Cipher.reverseSubstitutionMap r = p := by
  obtain ⟨h1, h2⟩ := Cipher.stages_cancel p k hp hk
  exact ⟨_, _, h1, h2, Cipher.reverseSubstitution_applySubstitution p hs⟩

/-- Witness of C19 at the plaintext `"Top Secret"` and the key `"zebra"`. -/
theorem pipeline_round_trip_of_symbolFree_witness :
    WellFormed [84, 111, 112, 32, 83, 101, 99, 114, 101, 116] ∧
    SymbolFree [84, 111, 112, 32, 83, 101, 99, 114, 101, 116] ∧
    ([122, 101, 98, 114, 97] : Str) ≠ [] ∧
    ∃ s r, Cipher.applyShift
        (Cipher.applySubstitution [84, 111, 112, 32, 83, 101, 99, 114, 101, 116])
        [122, 101, 98, 114, 97] = Except.ok s ∧
      Cipher.reverseShift
        (Cipher.reverseTransposition (Cipher.applyTransposition s) s.length)
        [122, 101, 98, 114, 97] = Except.ok r ∧
      Cipher.reverseSubstitution Cipher.reverseSubstitutionMap r
        = [84, 111, 112, 32, 83, 101, 99, 114, 101, 116] :=
  ⟨by decide, by decide, by decide,
    pipeline_round_trip_of_symbolFree [84, 111, 112, 32, 83, 101, 99, 114, 101, 116]
      [122, 101, 98, 114, 97] (by decide) (by decide) (by decide)⟩

/-- C20: for every text `t` and every non-empty key `k`, the functions
`applySubstitution`, `applyShift`, `reverseShift` and `applyTransposition` of
`cyber.cpp` return the same strings as those of `cipher.cpp`; both shift
functions return a string in both files. -/
theorem cyber_agrees_with_cipher (t k : Str) (hk : k ≠ []) :
    Cyber.applySubstitution t = Cipher.applySubstitution t ∧
    (∃ s, Cyber.applyShift t k = Except.ok s ∧ Cipher.applyShift t k = Except.ok s) ∧
    (∃ r, Cyber.reverseShift t k = Except.ok r ∧ Cipher.reverseShift t k = Except.ok r) ∧
    Cyber.applyTransposition t = Cipher.applyTransposition t := by
  refine ⟨Cyber.applySubstitution_eq_cipher t, ⟨_, ?_, Cipher.applyShift_eq t k hk⟩,
    ⟨_, ?_, Cipher.reverseShift_eq t k hk⟩, Cyber.applyTransposition_eq_cipher t⟩
  · rw [Cyber.applyShift_eq_cipher t k hk]; exact Cipher.applyShift_eq t k hk
  · rw [Cyber.reverseShift_eq_cipher t k hk]; exact Cipher.reverseShift_eq t k hk

/-- Witness of C20 at the text `"Hello, World"` and the key `"Key"`. -/
theorem cyber_agrees_with_cipher_witness :
    ([75, 101, 121] : Str) ≠ [] ∧
    (Cyber.applySubstitution [72, 101, 108, 108, 111, 44, 32, 87, 111, 114, 108, 100]
      = Cipher.applySubstitution [72, 101, 108, 108, 111, 44, 32, 87, 111, 114, 108, 100] ∧
    (∃ s, Cyber.applyShift [72, 101, 108, 108, 111, 44, 32, 87, 111, 114, 108, 100]
          [75, 101, 121] = Except.ok s ∧
        Cipher.applyShift [72, 101, 108, 108, 111, 44, 32, 87, 111, 114, 108, 100]
          [75, 101, 121] = Except.ok s) ∧
    (∃ r, Cyber.reverseShift [72, 101, 108, 108, 111, 44, 32, 87, 111, 114, 108, 100]
          [75, 101, 121] = Except.ok r ∧
        Cipher.reverseShift [72, 101, 108, 108, 111, 44, 32, 87, 111, 114, 108, 100]
          [75, 101, 121] = Except.ok r) ∧
    Cyber.applyTransposition [72, 101, 108, 108, 111, 44, 32, 87, 111, 114, 108, 100]
      = Cipher.applyTransposition [72, 101, 108, 108, 111, 44, 32, 87, 111, 114, 108, 100]) :=
  ⟨by decide, cyber_agrees_with_cipher
    [72, 101, 108, 108, 111, 44, 32, 87, 111, 114, 108, 100] [75, 101, 121] (by decide)⟩
